import Mathlib

/-!
# BFS user file-system API (`fs.c`): stream read / write / seek

A shallow embedding of `fsSeek`, `fsTell`, `fsSize`, `fsRead`, `fsWrite`,
`fsFdToFdn` and `fsCursorPosToFdn` from `src/fs.c`, together with the
collaborators of `bfs.c` / `bio.c` that they call.

* `i32` values are integers; every `+` and `-` of the source on `i32` goes
  through `add32` / `sub32`, which wrap modulo `2^32`.
* C `/` and `%` on `i32` truncate towards zero: `Int.tdiv`, `Int.tmod`.
* A pointer into a buffer is the buffer (`Mem`) together with an integer
  offset from its base.
* The state `FS` is the part of the global state reachable from one open
  file descriptor: the cursor of its open-file-table entry, the size stored
  in its inode, its allocation map and the disk.
* `fsOpen` and `fsCreate` work on `Names`, the state behind the directory and
  the open-file table.
* `FS.calls` and `Names.ncalls` log the collaborator calls, so that statements
  about which blocks are read, written or allocated can be made.
-/

namespace BFS

/-- One byte (`i8`) of file data; bytes are only copied, never computed on. -/
abbrev i8 := Int

/-- Memory seen through a base pointer: the byte at each offset from the base. -/
abbrev Mem := Int → i8

/-- Two's-complement wrap of an integer into the `i32` range. -/
def wrap32 (x : Int) : Int := (x + 2147483648) % 4294967296 - 2147483648

/-- The `+` of the source on `i32`. -/
def add32 (a b : Int) : Int := wrap32 (a + b)

/-- The `-` of the source on `i32`. -/
def sub32 (a b : Int) : Int := wrap32 (a - b)

/-- The value is representable as an `i32`. -/
def isI32 (x : Int) : Prop := -2147483648 ≤ x ∧ x ≤ 2147483647

/-- Modelled from the spec: the constant `BYTESPERBLOCK` of `bfs.h`, the fixed
block size; the scenario of the spec gives "block size 512". -/
def BYTESPERBLOCK : Int := 512

/-- The `SEEK_SET` of `<stdio.h>`. -/
def SEEK_SET : Int := 0

/-- The `SEEK_CUR` of `<stdio.h>`. -/
def SEEK_CUR : Int := 1

/-- The `SEEK_END` of `<stdio.h>`. -/
def SEEK_END : Int := 2

/-- The error numbers of `errors.h` that `fs.c` uses; the header is not part of
the sources at hand, so their values are parameters. -/
structure Errno where
  EBADCURS : Int
  EBADWHENCE : Int
  EFNF : Int

/-- The `memcpy(dst + d, src + s, n)` of `<string.h>`: `n` bytes of `src` from
offset `s` on are copied to `dst` from offset `d` on. The source only passes
lengths between 0 and `BYTESPERBLOCK` when the requested count is not negative;
here a negative length copies nothing. -/
def memcpy (dst : Mem) (d : Int) (src : Mem) (s : Int) (n : Int) : Mem :=
  fun i => if d ≤ i ∧ i < d + n then src (s + (i - d)) else dst i

/-- A call of a block-level collaborator, with its block-number argument. -/
inductive Call where
  | bfsExtend (fbn : Int)
  | bfsRead (fbn : Int)
  | bfsFbnToDbn (fbn : Int)
  | bioWrite (dbn : Int)
  deriving DecidableEq

/-- The state reachable from one open file descriptor.

* `curs`: `g_oft[ofte].curs`, the cursor of the open-file-table entry;
* `size`: the logical size held in the inode;
* `nblocks`: the number of blocks allocated to the file;
* `dbnOf`: the allocation map, from file-relative to device block numbers
  (for a block that is not allocated yet, the device block it will get);
* `disk`: the content of each device block;
* `calls`: the block-level collaborator calls made so far, oldest first. -/
structure FS where
  curs : Int
  size : Int
  nblocks : Int
  dbnOf : Int → Int
  disk : Int → Mem
  calls : List Call

/-- How a call of the API ends: it returns `val` in state `s`, or `FATAL(code)`
ends the process in state `s`, or the model ran out of loop fuel. -/
inductive Outcome (α : Type) where
  | ok (val : α) (s : FS)
  | fatal (code : Int) (s : FS)
  | diverged

/-- Modelled from the spec: the macro `FATAL` of the errors header, "these
terminate the process immediately with a diagnostic; there is no unwind": the
call ends here with the error number, in the state reached so far. -/
def FATAL {α : Type} (code : Int) (s : FS) : Outcome α := Outcome.fatal code s

/-- Sequencing: the rest of the function runs only after a call that returned. -/
def Outcome.bind {α β : Type} (x : Outcome α) (f : α → FS → Outcome β) : Outcome β :=
  match x with
  | .ok v s => f v s
  | .fatal c s => .fatal c s
  | .diverged => .diverged

/-- Modelled from the spec: `bfsTell` of `bfs.c`, "returns the current cursor,
a pure read of the Cursor Store". -/
def bfsTell (s : FS) : Int := s.curs

/-- Modelled from the spec: `bfsGetSize` of `bfs.c`, "get logical file size of
record id". -/
def bfsGetSize (s : FS) : Int := s.size

/-- Modelled from the spec: `bfsSetSize` of `bfs.c`, "set logical file size of
record id". -/
def bfsSetSize (s : FS) (bytes : Int) : FS := { s with size := bytes }

/-- Modelled from the spec: `bfsExtend` of `bfs.c`, "grow the file's block
allocation to cover up through lastFileBlockNum"; blocks already allocated
keep their place and content. -/
def bfsExtend (s : FS) (fbn : Int) : FS :=
  { s with nblocks := max s.nblocks (fbn + 1), calls := s.calls ++ [Call.bfsExtend fbn] }

/-- Modelled from the spec: `bfsFbnToDbn` of `bfs.c`, "translate a
file-relative block number to its physical block, via the file's allocation
map". -/
def bfsFbnToDbn (s : FS) (fbn : Int) : Int × FS :=
  (s.dbnOf fbn, { s with calls := s.calls ++ [Call.bfsFbnToDbn fbn] })

/-- Modelled from the spec: `bfsRead(inum, fbn, dst + off)` of `bfs.c`, "read
one full block's worth of bytes for the file's fileBlockNum-th block". -/
def bfsRead (s : FS) (fbn : Int) (dst : Mem) (off : Int) : Mem × FS :=
  (memcpy dst off (s.disk (s.dbnOf fbn)) 0 BYTESPERBLOCK,
   { s with calls := s.calls ++ [Call.bfsRead fbn] })

/-- Modelled from the spec: `bioWrite(dbn, src + off)` of `bio.c`, "write one
full block to its resolved physical location". -/
def bioWrite (s : FS) (dbn : Int) (src : Mem) (off : Int) : FS :=
  { s with
    disk := fun d => if d = dbn then memcpy (s.disk d) 0 src off BYTESPERBLOCK else s.disk d,
    calls := s.calls ++ [Call.bioWrite dbn] }

/-- An uninitialised `i8 temp[BYTESPERBLOCK]`. -/
def tempBlock : Mem := fun _ => 0

/-- `fsCursorPosToFdn` : `(i32)(cursorPos / BYTESPERBLOCK)`. -/
def fsCursorPosToFdn (cursorPos : Int) : Int := Int.tdiv cursorPos BYTESPERBLOCK

/-- `fsTell` : `bfsTell(fd)`. -/
def fsTell (s : FS) : Int := bfsTell s

/-- `fsSize` : `bfsGetSize(bfsFdToInum(fd))`. -/
def fsSize (s : FS) : Int := bfsGetSize s

/-- `fsFdToFdn` : the block number of the cursor. -/
def fsFdToFdn (s : FS) : Int :=
  let cursorPos := fsTell s
  fsCursorPosToFdn cursorPos

/-- `fsSeek` : a negative offset and an unknown `whence` are fatal; otherwise the
cursor of the open-file-table entry is set and 0 returned. -/
def fsSeek (K : Errno) (s : FS) (offset whence : Int) : Outcome Int :=
  if offset < 0 then FATAL K.EBADCURS s
  else if whence = SEEK_SET then Outcome.ok 0 { s with curs := offset }
  else if whence = SEEK_CUR then Outcome.ok 0 { s with curs := add32 s.curs offset }
  else if whence = SEEK_END then
    let endPos := fsSize s
    Outcome.ok 0 { s with curs := add32 endPos offset }
  else FATAL K.EBADWHENCE s

/-- `fsRead`, first partial block: yields `bytesRead`, `bufItr` and the buffer. -/
def fsRead_first (K : Errno) (s : FS) (fbn offset bytesAvailable : Int) (buf : Mem) :
    Outcome (Int × Int × Mem) :=
  if offset > 0 then
    let r := bfsRead s fbn tempBlock 0
    let temp := r.1
    let bytesRead :=
      if sub32 BYTESPERBLOCK offset > bytesAvailable then bytesAvailable
      else sub32 BYTESPERBLOCK offset
    let buf1 := memcpy buf 0 temp offset bytesRead
    let bufItr := 0 + bytesRead
    (fsSeek K r.2 bytesRead SEEK_CUR).bind fun _ s1 => Outcome.ok (bytesRead, bufItr, buf1) s1
  else Outcome.ok (0, 0, buf) s

/-- `fsRead`, the loop over full blocks; each iteration uses one unit of fuel. -/
def fsRead_full (K : Errno) : Nat → FS → Int → Int → Int → Mem → Outcome (Int × Int × Mem)
  | 0, _, _, _, _, _ => Outcome.diverged
  | fuel + 1, s, bytesAvailable, bytesRead, bufItr, buf =>
    if sub32 bytesAvailable bytesRead ≥ BYTESPERBLOCK then
      let fbn := fsFdToFdn s
      let r := bfsRead s fbn buf bufItr
      (fsSeek K r.2 BYTESPERBLOCK SEEK_CUR).bind fun _ s1 =>
        fsRead_full K fuel s1 bytesAvailable (add32 bytesRead BYTESPERBLOCK)
          (bufItr + BYTESPERBLOCK) r.1
    else Outcome.ok (bytesRead, bufItr, buf) s

/-- `fsRead`, last partial block: yields `bytesRead` and the buffer. -/
def fsRead_last (K : Errno) (s : FS) (bytesAvailable bytesRead bufItr : Int) (buf : Mem) :
    Outcome (Int × Mem) :=
  let remainder := sub32 bytesAvailable bytesRead
  if remainder > 0 then
    let fbn := fsFdToFdn s
    let r := bfsRead s fbn tempBlock 0
    let temp := r.1
    let buf1 := memcpy buf bufItr temp 0 remainder
    (fsSeek K r.2 remainder SEEK_CUR).bind fun _ s1 =>
      Outcome.ok (add32 bytesRead remainder, buf1) s1
  else Outcome.ok (bytesRead, buf) s

/-- `fsRead` : read `numb` bytes at the cursor into `buf`; the value is the
number of bytes read and the buffer after the call. -/
def fsRead (K : Errno) (s : FS) (numb : Int) (buf : Mem) : Outcome (Int × Mem) :=
  let cursorPos := fsTell s
  let fbn := fsCursorPosToFdn cursorPos
  let bytesAvailable :=
    if sub32 (fsSize s) cursorPos > numb then numb else sub32 (fsSize s) cursorPos
  if cursorPos < 0 ∨ cursorPos = K.EBADCURS then FATAL K.EBADCURS s
  else if cursorPos ≥ fsSize s then Outcome.ok (0, buf) s
  else
    let offset := Int.tmod cursorPos BYTESPERBLOCK
    (fsRead_first K s fbn offset bytesAvailable buf).bind fun a s1 =>
    (fsRead_full K (numb.toNat + 1) s1 bytesAvailable a.1 a.2.1 a.2.2).bind fun b s2 =>
    fsRead_last K s2 bytesAvailable b.1 b.2.1 b.2.2

/-- `fsWrite`, first partial block: yields `bytesWritten` and `bufItr`. -/
def fsWrite_first (K : Errno) (s : FS) (cursorPos offset numb : Int) (buf : Mem) :
    Outcome (Int × Int) :=
  if offset > 0 then
    let fbn := fsCursorPosToFdn cursorPos
    let d := bfsFbnToDbn s fbn
    let dbn := d.1
    let r := bfsRead d.2 fbn tempBlock 0
    let bytesWritten :=
      if sub32 BYTESPERBLOCK offset > numb then numb else sub32 BYTESPERBLOCK offset
    let temp := memcpy r.1 offset buf 0 bytesWritten
    let s1 := bioWrite r.2 dbn temp 0
    let bufItr := 0 + bytesWritten
    (fsSeek K s1 bytesWritten SEEK_CUR).bind fun _ s2 => Outcome.ok (bytesWritten, bufItr) s2
  else Outcome.ok (0, 0) s

/-- `fsWrite`, the loop over full blocks; each iteration uses one unit of fuel. -/
def fsWrite_full (K : Errno) : Nat → FS → Int → Int → Int → Mem → Outcome (Int × Int)
  | 0, _, _, _, _, _ => Outcome.diverged
  | fuel + 1, s, numb, bytesWritten, bufItr, buf =>
    if sub32 numb bytesWritten ≥ BYTESPERBLOCK then
      let fbn := fsFdToFdn s
      let d := bfsFbnToDbn s fbn
      let dbn := d.1
      let s1 := bioWrite d.2 dbn buf bufItr
      (fsSeek K s1 BYTESPERBLOCK SEEK_CUR).bind fun _ s2 =>
        fsWrite_full K fuel s2 numb (add32 bytesWritten BYTESPERBLOCK)
          (bufItr + BYTESPERBLOCK) buf
    else Outcome.ok (bytesWritten, bufItr) s

/-- `fsWrite`, last partial block: yields `bytesWritten`. -/
def fsWrite_last (K : Errno) (s : FS) (numb bytesWritten bufItr : Int) (buf : Mem) :
    Outcome Int :=
  let remainder := sub32 numb bytesWritten
  if remainder > 0 then
    let fbn := fsFdToFdn s
    let d := bfsFbnToDbn s fbn
    let dbn := d.1
    let r := bfsRead d.2 fbn tempBlock 0
    let temp := memcpy r.1 0 buf bufItr remainder
    let s1 := bioWrite r.2 dbn temp 0
    (fsSeek K s1 remainder SEEK_CUR).bind fun _ s2 =>
      Outcome.ok (add32 bytesWritten remainder) s2
  else Outcome.ok bytesWritten s

/-- `fsWrite` : write `numb` bytes of `buf` at the cursor; 0 on success. -/
def fsWrite (K : Errno) (s : FS) (numb : Int) (buf : Mem) : Outcome Int :=
  let cursorPos := fsTell s
  if cursorPos < 0 ∨ cursorPos = K.EBADCURS then FATAL K.EBADCURS s
  else
    let s0 :=
      if sub32 (fsSize s) cursorPos < numb then
        let lastFbn := fsCursorPosToFdn (add32 cursorPos numb)
        bfsExtend s lastFbn
      else s
    let offset := Int.tmod cursorPos BYTESPERBLOCK
    (fsWrite_first K s0 cursorPos offset numb buf).bind fun a s1 =>
    (fsWrite_full K (numb.toNat + 1) s1 numb a.1 a.2 buf).bind fun b s2 =>
    (fsWrite_last K s2 numb b.1 b.2 buf).bind fun _ s3 =>
      let finalPos := fsTell s3
      let s4 := if finalPos > bfsGetSize s3 then bfsSetSize s3 finalPos else s3
      Outcome.ok 0 s4

/-- The file's block `fbn` as the block collaborator returns it. -/
def fileBlock (s : FS) (fbn : Int) : Mem := (bfsRead s fbn tempBlock 0).1

/-- The byte of the file at position `p`: byte `p % BYTESPERBLOCK` of the block
`p / BYTESPERBLOCK`. -/
def fileByte (s : FS) (p : Int) : i8 := fileBlock s (p / BYTESPERBLOCK) (p % BYTESPERBLOCK)

/-- The effect of a phase of `fsWrite` that takes `k` bytes from `buf + b` to the
cursor: the cursor advances by `k`, the bytes of the file at the `k` positions
from the old cursor on are those of the buffer, every other byte of the file,
the size and the allocation are as before. The bytes of the file are determined
when distinct file blocks lie in distinct device blocks. -/
def Wrote (s s1 : FS) (k : Int) (buf : Mem) (b : Int) : Prop :=
  s1.curs = s.curs + k ∧ s1.size = s.size ∧ s1.dbnOf = s.dbnOf ∧ s1.nblocks = s.nblocks ∧
  (Function.Injective s.dbnOf → ∀ p, fileByte s1 p =
    if s.curs ≤ p ∧ p < s.curs + k then buf (b + (p - s.curs)) else fileByte s p)

/-- The effect of a phase of `fsRead` that brings `k` bytes from the cursor to
`buf + b`: the cursor advances by `k`, the `k` bytes of the buffer from offset
`b` on are the bytes of the file from the old cursor on, every other byte of
the buffer is as before, and the file (size, blocks, allocation) is as before. -/
def ReadInto (s s1 : FS) (k : Int) (buf buf1 : Mem) (b : Int) : Prop :=
  s1.curs = s.curs + k ∧ s1.size = s.size ∧ s1.disk = s.disk ∧ s1.dbnOf = s.dbnOf ∧
  s1.nblocks = s.nblocks ∧
  ∀ i, buf1 i = if b ≤ i ∧ i < b + k then fileByte s (s.curs + (i - b)) else buf i

/-- Error numbers used in the examples: three distinct negative numbers. -/
def exErrno : Errno := ⟨-1, -2, -3⟩

/-- A newly created file with the cursor at `c`: no bytes, no blocks; file block
`fbn` will live in device block `fbn + 100`, and the disk holds zeros. -/
def newFile (c : Int) : FS := ⟨c, 0, 0, fun fbn => fbn + 100, fun _ _ => 0, []⟩

/-- A file of `size` bytes with the cursor at `c`, whose byte at position `p`
is `p % 7`. -/
def sampleFile (c size : Int) : FS :=
  ⟨c, size, (size + 511) / 512, fun fbn => fbn + 100,
    fun dbn i => ((dbn - 100) * 512 + i) % 7, []⟩

/-- A caller's buffer filled with the byte `v`. -/
def fill (v : i8) : Mem := fun _ => v

/-- The bytes `B1[0..n1)` followed by the bytes of `B2`. -/
def concatMem (B1 : Mem) (n1 : Int) (B2 : Mem) : Mem :=
  fun i => if i < n1 then B1 i else B2 (i - n1)

/-- The file is the same in `s1` as in `s`: size, allocation and the content of
every block; only the cursor and the log of calls may differ. -/
def SameFile (s s1 : FS) : Prop :=
  s1.size = s.size ∧ s1.nblocks = s.nblocks ∧ s1.dbnOf = s.dbnOf ∧ s1.disk = s.disk

/-- The call left the file of `s` as it was, however it ended. -/
def Outcome.keeps {α : Type} (s : FS) : Outcome α → Prop
  | Outcome.ok _ s1 => SameFile s s1
  | Outcome.fatal _ s1 => SameFile s s1
  | Outcome.diverged => True

/-- The state in which a call returned, if it returned. -/
def Outcome.returned {α : Type} : Outcome α → Option FS
  | Outcome.ok _ s => some s
  | Outcome.fatal _ _ => none
  | Outcome.diverged => none

/-- One call of the stream API on the open file. -/
inductive Op where
  | seek (offset whence : Int)
  | read (numb : Int) (buf : Mem)
  | write (numb : Int) (buf : Mem)

/-- The state after the call `op` made in state `s`, when the call returns. -/
def applyOp (K : Errno) (s : FS) : Op → Option FS
  | Op.seek offset whence => (fsSeek K s offset whence).returned
  | Op.read numb buf => (fsRead K s numb buf).returned
  | Op.write numb buf => (fsWrite K s numb buf).returned

/-- The state after the calls `ops` made one after the other from `s`, when all
of them return. -/
def runOps (K : Errno) : FS → List Op → Option FS
  | s, [] => some s
  | s, op :: ops =>
    match applyOp K s op with
    | some s1 => runOps K s1 ops
    | none => none

/-- The call `op` made in state `s` asks for a count that is not negative, and
the sum it forms for the cursor fits in an `i32`. -/
def Op.fits (s : FS) : Op → Prop
  | Op.seek offset whence =>
    (whence = SEEK_CUR → isI32 (s.curs + offset)) ∧ (whence = SEEK_END → isI32 (s.size + offset))
  | Op.read numb _ => 0 ≤ numb
  | Op.write numb _ => 0 ≤ numb ∧ isI32 (s.curs + numb)

/-- Every call of `ops`, made one after the other from `s`, fits (`Op.fits`) in
the state in which it is made. -/
def fitsAll (K : Errno) : FS → List Op → Prop
  | _, [] => True
  | s, op :: ops => op.fits s ∧ ∀ s1, applyOp K s op = some s1 → fitsAll K s1 ops

/-- A call of a name-level collaborator, with its argument. -/
inductive NameCall where
  | bfsLookupFile (fname : String)
  | bfsCreateFile (fname : String)
  | bfsInumToFd (inum : Int)
  deriving DecidableEq

/-- The state behind the name-level collaborators of `bfs.c`.

* `lookup fname`: the inum of the file called `fname` in the directory, or `EFNF`;
* `created fname`: the inum `bfsCreateFile` gives for `fname`, or `EFNF` when the
  creation is rejected;
* `fdOf inum`: the file descriptor derived from `inum`;
* `oft`: the inums that hold an open-file-table entry;
* `ncalls`: the name-level collaborator calls made so far, oldest first. -/
structure Names where
  lookup : String → Int
  created : String → Int
  fdOf : Int → Int
  oft : List Int
  ncalls : List NameCall

/-- Modelled from the spec: `bfsLookupFile` of `bfs.c`, "resolve name to existing
identifier", or the not-found indicator. -/
def bfsLookupFile (d : Names) (fname : String) : Int × Names :=
  (d.lookup fname, { d with ncalls := d.ncalls ++ [NameCall.bfsLookupFile fname] })

/-- Modelled from the spec: `bfsCreateFile` of `bfs.c`, "create-or-truncate file
entry": it gives the identifier of the entry, which the name then resolves to, or
the not-found indicator. -/
def bfsCreateFile (K : Errno) (d : Names) (fname : String) : Int × Names :=
  (d.created fname,
   { d with
     lookup := fun n =>
       if n = fname ∧ d.created fname ≠ K.EFNF then d.created fname else d.lookup n,
     ncalls := d.ncalls ++ [NameCall.bfsCreateFile fname] })

/-- Modelled from the spec: `bfsInumToFd` of `bfs.c`, the "inverse mapping,
allocating/reusing an open-file-table entry". -/
def bfsInumToFd (d : Names) (inum : Int) : Int × Names :=
  (d.fdOf inum,
   { d with
     oft := if inum ∈ d.oft then d.oft else inum :: d.oft,
     ncalls := d.ncalls ++ [NameCall.bfsInumToFd inum] })

/-- `fsCreate` : create the file called `fname`; its file descriptor, or `EFNF`. -/
def fsCreate (K : Errno) (d : Names) (fname : String) : Int × Names :=
  let r := bfsCreateFile K d fname
  let inum := r.1
  if inum = K.EFNF then (K.EFNF, r.2)
  else bfsInumToFd r.2 inum

/-- `fsOpen` : open the existing file called `fname`; its file descriptor, or
`EFNF`. -/
def fsOpen (K : Errno) (d : Names) (fname : String) : Int × Names :=
  let r := bfsLookupFile d fname
  let inum := r.1
  if inum = K.EFNF then (K.EFNF, r.2)
  else bfsInumToFd r.2 inum

/-- A directory for the examples: the file "a" has inum 4, no other file exists,
every creation succeeds with inum 7, and inum `i` gets the descriptor `i + 10`. -/
def exNames : Names :=
  ⟨fun n => if n = "a" then 4 else exErrno.EFNF, fun _ => 7, fun i => i + 10, [], []⟩

/-- Calls for the examples: seek to 100, write 700 bytes, read 300 bytes. -/
def exOps : List Op := [Op.seek 100 SEEK_SET, Op.write 700 (fill 1), Op.read 300 (fill 0)]

/-- The state after the calls `exOps` on a new file. -/
def exOpsEnd : FS := (runOps exErrno (newFile 0) exOps).getD (newFile 0)

/-- The file blocks `f, f+1, ..., f+m-1`, in ascending order. -/
def blocksFrom (f : Int) : Nat → List Int
  | 0 => []
  | m + 1 => f :: blocksFrom (f + 1) m

/-- The device blocks written by the calls of `bioWrite` in a log, in order. -/
def bioWrites : List Call → List Int
  | [] => []
  | Call.bfsExtend _ :: l => bioWrites l
  | Call.bfsRead _ :: l => bioWrites l
  | Call.bfsFbnToDbn _ :: l => bioWrites l
  | Call.bioWrite dbn :: l => dbn :: bioWrites l

/-- Replay of a log against an allocation of `A` blocks: every `bfsRead` and
`bfsFbnToDbn` gets a block number in `0 .. A-1`, where `A` is the number of
blocks allocated at the time of the call; `bfsExtend` up to block `fbn` leaves
at least `fbn + 1` blocks allocated. -/
def withinAlloc : Int → List Call → Prop
  | _, [] => True
  | A, Call.bfsExtend fbn :: l => withinAlloc (max A (fbn + 1)) l
  | A, Call.bfsRead fbn :: l => (0 ≤ fbn ∧ fbn < A) ∧ withinAlloc A l
  | A, Call.bfsFbnToDbn fbn :: l => (0 ≤ fbn ∧ fbn < A) ∧ withinAlloc A l
  | A, Call.bioWrite _ :: l => withinAlloc A l

/-- The calls of a read-modify-write of the file block `f`. -/
def mergeCalls (dbnOf : Int → Int) (f : Int) : List Call :=
  [Call.bfsFbnToDbn f, Call.bfsRead f, Call.bioWrite (dbnOf f)]

/-- The calls of the direct writes of the `m` file blocks from `f` on. -/
def fullWriteCalls (dbnOf : Int → Int) (f : Int) : Nat → List Call
  | 0 => []
  | m + 1 => Call.bfsFbnToDbn f :: Call.bioWrite (dbnOf f) :: fullWriteCalls dbnOf (f + 1) m

/-- The calls of the direct reads of the `m` file blocks from `f` on. -/
def fullReadCalls (f : Int) : Nat → List Call
  | 0 => []
  | m + 1 => Call.bfsRead f :: fullReadCalls (f + 1) m

/-- The number of bytes that the first partial phase handles, of `n` bytes asked
for at the cursor `c`: none when `c` is block-aligned, else up to the end of the
block of `c`. -/
def firstCount (c n : Int) : Int :=
  if c % 512 > 0 then (if 512 - c % 512 > n then n else 512 - c % 512) else 0

/-- The calls that `fsWrite` of `n` bytes makes, in order, on a file of size
`size` with cursor `c` and allocation map `dbnOf`: the extension if any, the
first partial block if any, the full blocks, the last partial block if any. -/
def writeCalls (dbnOf : Int → Int) (size c n : Int) : List Call :=
  (if sub32 size c < n then [Call.bfsExtend ((c + n) / 512)] else []) ++
  ((if c % 512 > 0 then mergeCalls dbnOf (c / 512) else []) ++
  (fullWriteCalls dbnOf ((c + firstCount c n) / 512) ((n - firstCount c n) / 512).toNat ++
  (if (n - firstCount c n) % 512 > 0 then mergeCalls dbnOf ((c + n) / 512) else [])))

/-- The calls that `fsRead` makes, in order, when `avail` bytes are available at
the cursor `c`: the first partial block if any, the full blocks, the last
partial block if any. -/
def readCalls (c avail : Int) : List Call :=
  (if c % 512 > 0 then [Call.bfsRead (c / 512)] else []) ++
  (fullReadCalls ((c + firstCount c avail) / 512) ((avail - firstCount c avail) / 512).toNat ++
  (if (avail - firstCount c avail) % 512 > 0 then [Call.bfsRead ((c + avail) / 512)] else []))

/-! ## Arithmetic of `i32` and of block positions -/

theorem wrap32_eq (x : Int) (h : isI32 x) : wrap32 x = x := by
  unfold isI32 at h
  unfold wrap32
  omega

theorem add32_eq (a b : Int) (h : isI32 (a + b)) : add32 a b = a + b :=
  wrap32_eq _ h

theorem sub32_eq (a b : Int) (h : isI32 (a - b)) : sub32 a b = a - b :=
  wrap32_eq _ h

theorem fsCursorPosToFdn_eq (p : Int) (h : 0 ≤ p) : fsCursorPosToFdn p = p / 512 := by
  unfold fsCursorPosToFdn BYTESPERBLOCK
  exact Int.tdiv_eq_ediv h (by decide)

theorem tmod_block_eq (p : Int) (h : 0 ≤ p) : Int.tmod p BYTESPERBLOCK = p % 512 := by
  unfold BYTESPERBLOCK
  exact Int.tmod_eq_emod h (by decide)

/-! ## The collaborators -/

theorem fsSeek_cur (K : Errno) (s : FS) (k : Int) (hk : 0 ≤ k) :
    fsSeek K s k SEEK_CUR = Outcome.ok 0 { s with curs := add32 s.curs k } := by
  unfold fsSeek
  rw [if_neg (by omega), if_neg (by decide), if_pos rfl]

theorem fileByte_eq (s : FS) (p : Int) :
    fileByte s p = s.disk (s.dbnOf (p / 512)) (p % 512) := by
  unfold fileByte fileBlock bfsRead memcpy BYTESPERBLOCK
  have h1 : 0 ≤ p % 512 := Int.emod_nonneg _ (by decide)
  have h2 : p % 512 < 512 := Int.emod_lt_of_pos _ (by decide)
  simp only []
  rw [if_pos ⟨h1, by omega⟩]
  congr 1
  omega

/-- What a block write does to the bytes of the file, when distinct file blocks
lie in distinct device blocks. -/
theorem fileByte_bioWrite (s : FS) (hinj : Function.Injective s.dbnOf) (fbn : Int)
    (src : Mem) (off : Int) (p : Int) :
    fileByte (bioWrite s (s.dbnOf fbn) src off) p =
      if p / 512 = fbn then src (off + p % 512) else fileByte s p := by
  rw [fileByte_eq, fileByte_eq]
  have h1 : 0 ≤ p % 512 := Int.emod_nonneg _ (by decide)
  have h2 : p % 512 < 512 := Int.emod_lt_of_pos _ (by decide)
  unfold bioWrite memcpy BYTESPERBLOCK
  simp only []
  by_cases h : p / 512 = fbn
  · rw [if_pos h, if_pos (by rw [h]), if_pos ⟨h1, by omega⟩]
    congr 1
    omega
  · rw [if_neg h, if_neg (fun e => h (hinj e))]

/-! ## The write path -/

theorem fileByte_congr (s s1 : FS) (hd : s1.disk = s.disk) (hm : s1.dbnOf = s.dbnOf) (p : Int) :
    fileByte s1 p = fileByte s p := by
  rw [fileByte_eq, fileByte_eq, hd, hm]

/-- Writing the block of position `c` from `blk + off`, when `blk + off` holds
the old block with the `k` bytes from offset `c % 512` on replaced by bytes of
`buf + b`. -/
theorem fileByte_merge (s s1 : FS) (hinj : Function.Injective s.dbnOf)
    (hd : s1.disk = s.disk) (hm : s1.dbnOf = s.dbnOf)
    (c k : Int) (buf : Mem) (b : Int) (hk : c % 512 + k ≤ 512)
    (blk : Mem) (off : Int)
    (hblk : ∀ i, 0 ≤ i → i < 512 → blk (off + i) =
      if c % 512 ≤ i ∧ i < c % 512 + k then buf (b + (i - c % 512))
      else s.disk (s.dbnOf (c / 512)) i)
    (p : Int) :
    fileByte (bioWrite s1 (s.dbnOf (c / 512)) blk off) p =
      if c ≤ p ∧ p < c + k then buf (b + (p - c)) else fileByte s p := by
  have hinj1 : Function.Injective s1.dbnOf := by rw [hm]; exact hinj
  rw [← hm, fileByte_bioWrite s1 hinj1, fileByte_congr s s1 hd hm, fileByte_eq]
  have h1 : 0 ≤ p % 512 := Int.emod_nonneg _ (by decide)
  have h2 : p % 512 < 512 := Int.emod_lt_of_pos _ (by decide)
  by_cases hp : p / 512 = c / 512
  · rw [if_pos hp, hblk _ h1 h2]
    by_cases hin : c ≤ p ∧ p < c + k
    · rw [if_pos hin, if_pos (by omega)]
      congr 1
      omega
    · rw [if_neg hin, if_neg (by omega), hp]
  · rw [if_neg hp, if_neg (by omega)]

theorem Wrote_refl (s : FS) (buf : Mem) (b : Int) : Wrote s s 0 buf b := by
  refine ⟨by omega, rfl, rfl, rfl, fun _ p => ?_⟩
  rw [if_neg (by omega)]

theorem Wrote_trans {s s1 s2 : FS} {k1 k2 : Int} {buf : Mem} {b : Int}
    (h1 : Wrote s s1 k1 buf b) (h2 : Wrote s1 s2 k2 buf (b + k1))
    (hk1 : 0 ≤ k1) (hk2 : 0 ≤ k2) : Wrote s s2 (k1 + k2) buf b := by
  obtain ⟨c1, z1, m1, n1, f1⟩ := h1
  obtain ⟨c2, z2, m2, n2, f2⟩ := h2
  refine ⟨by omega, z2.trans z1, m2.trans m1, n2.trans n1, fun hinj p => ?_⟩
  rw [f2 (by rw [m1]; exact hinj) p, f1 hinj p, c1]
  by_cases ha : s.curs + k1 ≤ p ∧ p < s.curs + k1 + k2
  · rw [if_pos ha, if_pos (by omega)]
    congr 1
    omega
  · rw [if_neg ha]
    by_cases hb : s.curs ≤ p ∧ p < s.curs + k1
    · rw [if_pos hb, if_pos (by omega)]
    · rw [if_neg hb, if_neg (by omega)]

/-- One block write followed by the cursor advance, as each phase of `fsWrite`
does it. -/
theorem Wrote_block (s s0 : FS)
    (h0c : s0.curs = s.curs) (h0s : s0.size = s.size) (h0d : s0.disk = s.disk)
    (h0m : s0.dbnOf = s.dbnOf) (h0n : s0.nblocks = s.nblocks)
    (k : Int) (buf : Mem) (b : Int) (hk : s.curs % 512 + k ≤ 512)
    (hfit : isI32 (s.curs + k)) (blk : Mem) (off : Int)
    (hblk : ∀ i, 0 ≤ i → i < 512 → blk (off + i) =
      if s.curs % 512 ≤ i ∧ i < s.curs % 512 + k then buf (b + (i - s.curs % 512))
      else s.disk (s.dbnOf (s.curs / 512)) i) :
    Wrote s
      { bioWrite s0 (s.dbnOf (s.curs / 512)) blk off with
        curs := add32 (bioWrite s0 (s.dbnOf (s.curs / 512)) blk off).curs k } k buf b := by
  refine ⟨?_, h0s, h0m, h0n, fun hinj p => ?_⟩
  · show add32 s0.curs k = _
    rw [h0c]
    exact add32_eq _ _ hfit
  · exact (fileByte_congr (bioWrite _ _ _ _) _ (by rfl) (by rfl) p).trans
      (fileByte_merge s s0 hinj h0d h0m s.curs k buf b hk blk off hblk p)

theorem fsWrite_first_spec (K : Errno) (s : FS) (numb : Int) (buf : Mem)
    (hc : 0 ≤ s.curs) (hn : 0 ≤ numb) (hfit : s.curs + numb ≤ 2147483647) :
    ∃ k s1, fsWrite_first K s s.curs (Int.tmod s.curs BYTESPERBLOCK) numb buf
        = Outcome.ok (k, k) s1 ∧
      Wrote s s1 k buf 0 ∧ 0 ≤ k ∧ k ≤ numb ∧ (k = numb ∨ s1.curs % 512 = 0) := by
  rw [tmod_block_eq _ hc]
  have h1 : 0 ≤ s.curs % 512 := Int.emod_nonneg _ (by decide)
  have h2 : s.curs % 512 < 512 := Int.emod_lt_of_pos _ (by decide)
  unfold fsWrite_first
  by_cases ho : s.curs % 512 > 0
  · have hsub : sub32 BYTESPERBLOCK (s.curs % 512) = 512 - s.curs % 512 :=
      sub32_eq _ _ (by unfold isI32 BYTESPERBLOCK; omega)
    rw [if_pos ho, hsub]
    simp only []
    obtain ⟨k, hk⟩ : ∃ k, k = if 512 - s.curs % 512 > numb then numb else 512 - s.curs % 512 :=
      ⟨_, rfl⟩
    rw [← hk]
    have hk0 : 0 ≤ k := by rw [hk]; split <;> omega
    have hk1 : k ≤ numb := by rw [hk]; split <;> omega
    have hk2 : k ≤ 512 - s.curs % 512 := by rw [hk]; split <;> omega
    have hk3 : k = numb ∨ k = 512 - s.curs % 512 := by rw [hk]; split <;> omega
    rw [fsSeek_cur _ _ _ hk0, fsCursorPosToFdn_eq _ hc]
    simp only [Outcome.bind, zero_add]
    have key : ∀ s1, Wrote s s1 k buf 0 →
        Wrote s s1 k buf 0 ∧ 0 ≤ k ∧ k ≤ numb ∧ (k = numb ∨ s1.curs % 512 = 0) :=
      fun s1 hw => ⟨hw, hk0, hk1, by have := hw.1; omega⟩
    refine ⟨k, _, rfl, key _ ?_⟩
    refine Wrote_block s (bfsRead (bfsFbnToDbn s (s.curs / 512)).2 (s.curs / 512) tempBlock 0).2
      rfl rfl rfl rfl rfl k buf 0 (by omega) (by unfold isI32; omega)
      (memcpy (bfsRead (bfsFbnToDbn s (s.curs / 512)).2 (s.curs / 512) tempBlock 0).1
        (s.curs % 512) buf 0 k) 0 ?_
    intro i hi0 hi1
    unfold bfsRead memcpy tempBlock BYTESPERBLOCK
    simp only []
    rw [zero_add]
    by_cases hin : s.curs % 512 ≤ i ∧ i < s.curs % 512 + k
    · rw [if_pos hin, if_pos hin]
    · rw [if_neg hin, if_neg hin, if_pos ⟨hi0, by omega⟩, show 0 + (i - 0) = i by omega]
      rfl
  · rw [if_neg ho]
    exact ⟨0, s, rfl, Wrote_refl s buf 0, le_refl _, hn, Or.inr (by omega)⟩

theorem fsWrite_full_spec (K : Errno) (numb : Int) (buf : Mem) (hn : numb ≤ 2147483647) :
    ∀ (fuel : Nat) (s : FS) (w b : Int), 0 ≤ s.curs →
      0 ≤ w → w ≤ numb → s.curs + (numb - w) ≤ 2147483647 →
      (numb = w ∨ s.curs % 512 = 0) → numb - w < 512 * (fuel : Int) →
      ∃ w1 s1, fsWrite_full K fuel s numb w b buf = Outcome.ok (w1, b + (w1 - w)) s1 ∧
        Wrote s s1 (w1 - w) buf b ∧ w ≤ w1 ∧ w1 ≤ numb ∧ numb - w1 < 512 ∧
        (numb = w1 ∨ s1.curs % 512 = 0) := by
  intro fuel
  induction fuel with
  | zero => intro s w b _ _ hw _ _ hf; exfalso; omega
  | succ fuel ih =>
    intro s w b hc hw0 hw hfit hal hf
    unfold fsWrite_full
    have hsub : sub32 numb w = numb - w := sub32_eq _ _ (by unfold isI32; omega)
    rw [hsub]
    by_cases hg : numb - w ≥ BYTESPERBLOCK
    · rw [if_pos hg]
      unfold BYTESPERBLOCK at hg
      have ha : s.curs % 512 = 0 := by omega
      simp only [fsFdToFdn, fsTell, bfsTell]
      rw [fsSeek_cur _ _ _ (by decide), fsCursorPosToFdn_eq _ hc,
        add32_eq w _ (by unfold isI32 BYTESPERBLOCK; omega)]
      simp only [Outcome.bind]
      have key : ∀ s0, Wrote s s0 512 buf b →
          ∃ w1 s1, fsWrite_full K fuel s0 numb (w + 512) (b + 512) buf
              = Outcome.ok (w1, b + (w1 - w)) s1 ∧
            Wrote s s1 (w1 - w) buf b ∧ w ≤ w1 ∧ w1 ≤ numb ∧ numb - w1 < 512 ∧
            (numb = w1 ∨ s1.curs % 512 = 0) := by
        intro s0 hstep
        obtain ⟨w1, s1, he, hwr, h1, h2, h3, h4⟩ := ih s0 (w + 512) (b + 512)
          (by rw [hstep.1]; omega) (by omega) (by omega)
          (by rw [hstep.1]; omega) (Or.inr (by rw [hstep.1]; omega))
          (by push_cast at hf; omega)
        refine ⟨w1, s1, ?_, ?_, by omega, h2, h3, h4⟩
        · rw [he, show b + 512 + (w1 - (w + 512)) = b + (w1 - w) by omega]
        · have := Wrote_trans hstep hwr (by decide) (by omega)
          rwa [show (512 : Int) + (w1 - (w + 512)) = w1 - w by omega] at this
      refine key _ ?_
      refine Wrote_block s (bfsFbnToDbn s (s.curs / 512)).2 rfl rfl rfl rfl rfl
        512 buf b (by omega) (by unfold isI32; omega) buf b ?_
      intro i hi0 hi1
      rw [if_pos (by omega)]
      congr 1
      omega
    · rw [if_neg hg]
      unfold BYTESPERBLOCK at hg
      refine ⟨w, s, ?_, ?_, le_refl _, hw, by omega, hal⟩
      · rw [show b + (w - w) = b by omega]
      · rw [show w - w = 0 by omega]
        exact Wrote_refl s buf b

theorem fsWrite_last_spec (K : Errno) (s : FS) (numb w b : Int) (buf : Mem)
    (hn : numb ≤ 2147483647) (hc : 0 ≤ s.curs) (hw0 : 0 ≤ w) (hw : w ≤ numb)
    (hr : numb - w < 512) (hfit : s.curs + (numb - w) ≤ 2147483647)
    (hal : numb = w ∨ s.curs % 512 = 0) :
    ∃ s1, fsWrite_last K s numb w b buf = Outcome.ok numb s1 ∧
      Wrote s s1 (numb - w) buf b := by
  unfold fsWrite_last
  have hsub : sub32 numb w = numb - w := sub32_eq _ _ (by unfold isI32; omega)
  rw [hsub]
  simp only []
  by_cases hg : numb - w > 0
  · rw [if_pos hg]
    have ha : s.curs % 512 = 0 := by omega
    simp only [fsFdToFdn, fsTell, bfsTell]
    rw [fsSeek_cur _ _ _ (by omega), fsCursorPosToFdn_eq _ hc,
      add32_eq w _ (by unfold isI32; omega)]
    simp only [Outcome.bind]
    refine ⟨_, by rw [show w + (numb - w) = numb by omega], ?_⟩
    refine Wrote_block s (bfsRead (bfsFbnToDbn s (s.curs / 512)).2 (s.curs / 512) tempBlock 0).2
      rfl rfl rfl rfl rfl (numb - w) buf b (by omega) (by unfold isI32; omega)
      (memcpy (bfsRead (bfsFbnToDbn s (s.curs / 512)).2 (s.curs / 512) tempBlock 0).1
        0 buf b (numb - w)) 0 ?_
    intro i hi0 hi1
    unfold bfsRead memcpy tempBlock BYTESPERBLOCK
    simp only []
    rw [zero_add, ha]
    by_cases hin : 0 ≤ i ∧ i < 0 + (numb - w)
    · rw [if_pos hin, if_pos hin]
    · rw [if_neg hin, if_neg hin, if_pos ⟨hi0, by omega⟩, show 0 + (i - 0) = i by omega]
      rfl
  · rw [if_neg hg]
    have hz : numb - w = 0 := by omega
    refine ⟨s, by rw [show w = numb by omega], ?_⟩
    rw [hz]
    exact Wrote_refl s buf b

/-- What `fsWrite` does: it returns 0, the cursor advances by `numb`, the size
becomes the larger of the old size and the new cursor, the `numb` bytes of the
file from the old cursor on are those of the buffer, and every other byte of
the file is as before. -/
theorem fsWrite_spec (K : Errno) (s : FS) (numb : Int) (buf : Mem)
    (hE : K.EBADCURS < 0) (hc : 0 ≤ s.curs)
    (hn : 0 ≤ numb) (hfit : s.curs + numb ≤ 2147483647) :
    ∃ s1, fsWrite K s numb buf = Outcome.ok 0 s1 ∧ s1.curs = s.curs + numb ∧
      s1.size = max s.size (s.curs + numb) ∧ s1.dbnOf = s.dbnOf ∧
      (Function.Injective s.dbnOf → ∀ p, fileByte s1 p =
        if s.curs ≤ p ∧ p < s.curs + numb then buf (p - s.curs) else fileByte s p) := by
  unfold fsWrite
  simp only [fsTell, bfsTell, fsSize, bfsGetSize]
  rw [if_neg (by omega)]
  obtain ⟨s0, hs0, h0c, h0s, h0d, h0m⟩ : ∃ s0,
      s0 = (if sub32 s.size s.curs < numb
        then bfsExtend s (fsCursorPosToFdn (add32 s.curs numb)) else s) ∧
      s0.curs = s.curs ∧ s0.size = s.size ∧ s0.disk = s.disk ∧ s0.dbnOf = s.dbnOf := by
    refine ⟨_, rfl, ?_⟩
    split <;> exact ⟨rfl, rfl, rfl, rfl⟩
  rw [← hs0, ← h0c]
  obtain ⟨k, s1, e1, w1, hk0, hk1, hal1⟩ :=
    fsWrite_first_spec K s0 numb buf (by omega) hn (by omega)
  rw [e1]
  simp only [Outcome.bind]
  obtain ⟨w, s2, e2, w2, hw0, hw1, hw2, hal2⟩ :=
    fsWrite_full_spec K numb buf (by omega) (numb.toNat + 1) s1 k k
      (by rw [w1.1]; omega) hk0 hk1 (by rw [w1.1]; omega)
      (by omega) (by omega)
  rw [e2]
  simp only [Outcome.bind]
  have w12 := Wrote_trans w1 (by rw [zero_add]; exact w2) hk0 (by omega)
  obtain ⟨s3, e3, w3⟩ :=
    fsWrite_last_spec K s2 numb w (k + (w - k)) buf (by omega)
      (by rw [w12.1]; omega) (by omega) hw1 hw2
      (by rw [w12.1]; omega) hal2
  rw [e3]
  simp only [Outcome.bind]
  have w13 := Wrote_trans w12 (by rw [zero_add]; exact w3) (by omega) (by omega)
  rw [show k + (w - k) + (numb - w) = numb by omega] at w13
  obtain ⟨c3, z3, m3, _, f3⟩ := w13
  refine ⟨_, rfl, ?_, ?_, ?_, ?_⟩
  · split
    · exact c3
    · exact c3
  · split
    · rename_i h
      show s3.curs = _
      rw [max_eq_right (by omega)]
      omega
    · rename_i h
      rw [max_eq_left (by omega)]
      omega
  · split
    · exact m3.trans h0m
    · exact m3.trans h0m
  · intro hinj p
    have e : fileByte (if s3.curs > s3.size then bfsSetSize s3 s3.curs else s3) p
        = fileByte s3 p := by
      split
      · rfl
      · rfl
    rw [e, f3 (by rw [h0m]; exact hinj) p, fileByte_congr s s0 h0d h0m p, zero_add]

/-! ## The read path -/

theorem ReadInto_refl (s : FS) (buf : Mem) (b : Int) : ReadInto s s 0 buf buf b := by
  refine ⟨by omega, rfl, rfl, rfl, rfl, fun i => ?_⟩
  rw [if_neg (by omega)]

theorem ReadInto_trans {s s1 s2 : FS} {k1 k2 : Int} {buf buf1 buf2 : Mem} {b : Int}
    (h1 : ReadInto s s1 k1 buf buf1 b) (h2 : ReadInto s1 s2 k2 buf1 buf2 (b + k1))
    (hk1 : 0 ≤ k1) (hk2 : 0 ≤ k2) : ReadInto s s2 (k1 + k2) buf buf2 b := by
  obtain ⟨c1, z1, d1, m1, n1, f1⟩ := h1
  obtain ⟨c2, z2, d2, m2, n2, f2⟩ := h2
  refine ⟨by omega, z2.trans z1, d2.trans d1, m2.trans m1, n2.trans n1, fun i => ?_⟩
  rw [f2 i, f1 i, c1, fileByte_congr s s1 d1 m1]
  by_cases ha : b + k1 ≤ i ∧ i < b + k1 + k2
  · rw [if_pos ha, if_pos (by omega)]
    congr 1
    omega
  · rw [if_neg ha]
    by_cases hb : b ≤ i ∧ i < b + k1
    · rw [if_pos hb, if_pos (by omega)]
    · rw [if_neg hb, if_neg (by omega)]

/-- One block read followed by the cursor advance, as each phase of `fsRead`
does it. -/
theorem ReadInto_step (s s0 : FS) (h0c : s0.curs = s.curs) (h0s : s0.size = s.size)
    (h0d : s0.disk = s.disk) (h0m : s0.dbnOf = s.dbnOf) (h0n : s0.nblocks = s.nblocks)
    (k : Int) (hfit : isI32 (s.curs + k)) (buf buf1 : Mem) (b : Int)
    (hbuf : ∀ i, buf1 i =
      if b ≤ i ∧ i < b + k then fileByte s (s.curs + (i - b)) else buf i) :
    ReadInto s { s0 with curs := add32 s0.curs k } k buf buf1 b := by
  refine ⟨?_, h0s, h0d, h0m, h0n, hbuf⟩
  show add32 s0.curs k = _
  rw [h0c]
  exact add32_eq _ _ hfit

theorem fsRead_first_spec (K : Errno) (s : FS) (avail : Int) (buf : Mem)
    (hc : 0 ≤ s.curs) (ha : 0 ≤ avail) (hfit : s.curs + avail ≤ 2147483647) :
    ∃ k s1 buf1, fsRead_first K s (fsCursorPosToFdn s.curs) (Int.tmod s.curs BYTESPERBLOCK)
        avail buf = Outcome.ok (k, k, buf1) s1 ∧
      ReadInto s s1 k buf buf1 0 ∧ 0 ≤ k ∧ k ≤ avail ∧ (k = avail ∨ s1.curs % 512 = 0) := by
  rw [tmod_block_eq _ hc, fsCursorPosToFdn_eq _ hc]
  have h1 : 0 ≤ s.curs % 512 := Int.emod_nonneg _ (by decide)
  have h2 : s.curs % 512 < 512 := Int.emod_lt_of_pos _ (by decide)
  unfold fsRead_first
  by_cases ho : s.curs % 512 > 0
  · have hsub : sub32 BYTESPERBLOCK (s.curs % 512) = 512 - s.curs % 512 :=
      sub32_eq _ _ (by unfold isI32 BYTESPERBLOCK; omega)
    rw [if_pos ho, hsub]
    simp only []
    obtain ⟨k, hk⟩ : ∃ k, k = if 512 - s.curs % 512 > avail then avail else 512 - s.curs % 512 :=
      ⟨_, rfl⟩
    rw [← hk]
    have hk0 : 0 ≤ k := by rw [hk]; split <;> omega
    have hk1 : k ≤ avail := by rw [hk]; split <;> omega
    have hk2 : k ≤ 512 - s.curs % 512 := by rw [hk]; split <;> omega
    have hk3 : k = avail ∨ k = 512 - s.curs % 512 := by rw [hk]; split <;> omega
    rw [fsSeek_cur _ _ _ hk0]
    simp only [Outcome.bind, zero_add]
    have key : ∀ s1 buf1, ReadInto s s1 k buf buf1 0 →
        ReadInto s s1 k buf buf1 0 ∧ 0 ≤ k ∧ k ≤ avail ∧ (k = avail ∨ s1.curs % 512 = 0) :=
      fun s1 buf1 hw => ⟨hw, hk0, hk1, by have := hw.1; omega⟩
    refine ⟨k, _, _, rfl, key _ _ ?_⟩
    refine ReadInto_step s (bfsRead s (s.curs / 512) tempBlock 0).2 rfl rfl rfl rfl rfl k
      (by unfold isI32; omega) buf _ 0 ?_
    intro i
    rw [fileByte_eq]
    unfold bfsRead memcpy tempBlock BYTESPERBLOCK
    simp only []
    by_cases hin : 0 ≤ i ∧ i < 0 + k
    · rw [if_pos hin, if_pos hin,
        if_pos (show 0 ≤ s.curs % 512 + (i - 0) ∧ s.curs % 512 + (i - 0) < 0 + 512 by omega),
        show (s.curs + (i - 0)) / 512 = s.curs / 512 by omega,
        show (s.curs + (i - 0)) % 512 = 0 + (s.curs % 512 + (i - 0) - 0) by omega]
    · rw [if_neg hin, if_neg hin]
  · rw [if_neg ho]
    exact ⟨0, s, buf, rfl, ReadInto_refl s buf 0, le_refl _, ha, Or.inr (by omega)⟩

theorem fsRead_full_spec (K : Errno) (avail : Int) (ha : avail ≤ 2147483647) :
    ∀ (fuel : Nat) (s : FS) (r b : Int) (buf : Mem), 0 ≤ s.curs →
      0 ≤ r → r ≤ avail → s.curs + (avail - r) ≤ 2147483647 →
      (avail = r ∨ s.curs % 512 = 0) → avail - r < 512 * (fuel : Int) →
      ∃ r1 s1 buf1, fsRead_full K fuel s avail r b buf
          = Outcome.ok (r1, b + (r1 - r), buf1) s1 ∧
        ReadInto s s1 (r1 - r) buf buf1 b ∧ r ≤ r1 ∧ r1 ≤ avail ∧ avail - r1 < 512 ∧
        (avail = r1 ∨ s1.curs % 512 = 0) := by
  intro fuel
  induction fuel with
  | zero => intro s r b buf _ _ hr _ _ hf; exfalso; omega
  | succ fuel ih =>
    intro s r b buf hc hr0 hr hfit hal hf
    unfold fsRead_full
    have hsub : sub32 avail r = avail - r := sub32_eq _ _ (by unfold isI32; omega)
    rw [hsub]
    by_cases hg : avail - r ≥ BYTESPERBLOCK
    · rw [if_pos hg]
      unfold BYTESPERBLOCK at hg
      have hz : s.curs % 512 = 0 := by omega
      simp only [fsFdToFdn, fsTell, bfsTell]
      rw [fsSeek_cur _ _ _ (by decide), fsCursorPosToFdn_eq _ hc,
        add32_eq r _ (by unfold isI32 BYTESPERBLOCK; omega)]
      simp only [Outcome.bind]
      have key : ∀ s0 buf0, ReadInto s s0 512 buf buf0 b →
          ∃ r1 s1 buf1, fsRead_full K fuel s0 avail (r + 512) (b + 512) buf0
              = Outcome.ok (r1, b + (r1 - r), buf1) s1 ∧
            ReadInto s s1 (r1 - r) buf buf1 b ∧ r ≤ r1 ∧ r1 ≤ avail ∧ avail - r1 < 512 ∧
            (avail = r1 ∨ s1.curs % 512 = 0) := by
        intro s0 buf0 hstep
        obtain ⟨r1, s1, buf1, he, hrd, h1, h2, h3, h4⟩ := ih s0 (r + 512) (b + 512) buf0
          (by rw [hstep.1]; omega) (by omega) (by omega)
          (by rw [hstep.1]; omega) (Or.inr (by rw [hstep.1]; omega))
          (by push_cast at hf; omega)
        refine ⟨r1, s1, buf1, ?_, ?_, by omega, h2, h3, h4⟩
        · rw [he, show b + 512 + (r1 - (r + 512)) = b + (r1 - r) by omega]
        · have := ReadInto_trans hstep hrd (by decide) (by omega)
          rwa [show (512 : Int) + (r1 - (r + 512)) = r1 - r by omega] at this
      refine key _ _ ?_
      refine ReadInto_step s (bfsRead s (s.curs / 512) buf b).2 rfl rfl rfl rfl rfl 512
        (by unfold isI32; omega) buf _ b ?_
      intro i
      rw [fileByte_eq]
      unfold bfsRead memcpy BYTESPERBLOCK
      simp only []
      by_cases hin : b ≤ i ∧ i < b + 512
      · rw [if_pos hin, if_pos hin,
          show (s.curs + (i - b)) / 512 = s.curs / 512 by omega,
          show (s.curs + (i - b)) % 512 = 0 + (i - b) by omega]
      · rw [if_neg hin, if_neg hin]
    · rw [if_neg hg]
      unfold BYTESPERBLOCK at hg
      refine ⟨r, s, buf, ?_, ?_, le_refl _, hr, by omega, hal⟩
      · rw [show b + (r - r) = b by omega]
      · rw [show r - r = 0 by omega]
        exact ReadInto_refl s buf b

theorem fsRead_last_spec (K : Errno) (s : FS) (avail r b : Int) (buf : Mem)
    (ha : avail ≤ 2147483647) (hc : 0 ≤ s.curs) (hr0 : 0 ≤ r) (hr : r ≤ avail)
    (hlt : avail - r < 512) (hfit : s.curs + (avail - r) ≤ 2147483647)
    (hal : avail = r ∨ s.curs % 512 = 0) :
    ∃ s1 buf1, fsRead_last K s avail r b buf = Outcome.ok (avail, buf1) s1 ∧
      ReadInto s s1 (avail - r) buf buf1 b := by
  unfold fsRead_last
  have hsub : sub32 avail r = avail - r := sub32_eq _ _ (by unfold isI32; omega)
  rw [hsub]
  simp only []
  by_cases hg : avail - r > 0
  · rw [if_pos hg]
    have hz : s.curs % 512 = 0 := by omega
    simp only [fsFdToFdn, fsTell, bfsTell]
    rw [fsSeek_cur _ _ _ (by omega), fsCursorPosToFdn_eq _ hc,
      add32_eq r _ (by unfold isI32; omega)]
    simp only [Outcome.bind]
    refine ⟨_, _, by rw [show r + (avail - r) = avail by omega], ?_⟩
    refine ReadInto_step s (bfsRead s (s.curs / 512) tempBlock 0).2 rfl rfl rfl rfl rfl
      (avail - r) (by unfold isI32; omega) buf _ b ?_
    intro i
    rw [fileByte_eq]
    unfold bfsRead memcpy tempBlock BYTESPERBLOCK
    simp only []
    by_cases hin : b ≤ i ∧ i < b + (avail - r)
    · rw [if_pos hin, if_pos hin,
        if_pos (show 0 ≤ 0 + (i - b) ∧ 0 + (i - b) < 0 + 512 by omega),
        show (s.curs + (i - b)) / 512 = s.curs / 512 by omega,
        show (s.curs + (i - b)) % 512 = 0 + (0 + (i - b) - 0) by omega]
    · rw [if_neg hin, if_neg hin]
  · rw [if_neg hg]
    have hz : avail - r = 0 := by omega
    refine ⟨s, buf, by rw [show r = avail by omega], ?_⟩
    rw [hz]
    exact ReadInto_refl s buf b

/-- What `fsRead` does below the end of the file: it returns
`min numb (size - cursor)`, that many bytes of the buffer are the bytes of the
file from the old cursor on, and the cursor advances by as much. -/
theorem fsRead_spec (K : Errno) (s : FS) (numb : Int) (buf : Mem)
    (hE : K.EBADCURS < 0) (hc : 0 ≤ s.curs) (hlt : s.curs < s.size)
    (hs : s.size ≤ 2147483647) (hn : 0 ≤ numb) :
    ∃ s1 out, fsRead K s numb buf = Outcome.ok (min numb (s.size - s.curs), out) s1 ∧
      ReadInto s s1 (min numb (s.size - s.curs)) buf out 0 := by
  unfold fsRead
  simp only [fsTell, bfsTell, fsSize, bfsGetSize]
  rw [if_neg (by omega), if_neg (by omega)]
  have hsub : sub32 s.size s.curs = s.size - s.curs := sub32_eq _ _ (by unfold isI32; omega)
  rw [hsub]
  obtain ⟨avail, hav⟩ : ∃ avail, avail = if s.size - s.curs > numb then numb
      else s.size - s.curs := ⟨_, rfl⟩
  rw [← hav]
  have hmin : min numb (s.size - s.curs) = avail := by
    rw [hav]
    split
    · exact min_eq_left (by omega)
    · exact min_eq_right (by omega)
  have ha0 : 0 ≤ avail := by rw [hav]; split <;> omega
  have ha1 : avail ≤ numb := by rw [hav]; split <;> omega
  have ha2 : avail ≤ s.size - s.curs := by rw [hav]; split <;> omega
  rw [hmin]
  obtain ⟨k, s1, buf1, e1, r1, hk0, hk1, hal1⟩ :=
    fsRead_first_spec K s avail buf hc ha0 (by omega)
  rw [e1]
  simp only [Outcome.bind]
  obtain ⟨r, s2, buf2, e2, r2, hr0, hr1, hr2, hal2⟩ :=
    fsRead_full_spec K avail (by omega) (numb.toNat + 1) s1 k k buf1
      (by rw [r1.1]; omega) hk0 hk1 (by rw [r1.1]; omega) (by omega) (by omega)
  rw [e2]
  simp only [Outcome.bind]
  have r12 := ReadInto_trans r1 (by rw [zero_add]; exact r2) hk0 (by omega)
  obtain ⟨s3, buf3, e3, r3⟩ :=
    fsRead_last_spec K s2 avail r (k + (r - k)) buf2 (by omega)
      (by rw [r12.1]; omega) (by omega) hr1 hr2 (by rw [r12.1]; omega) hal2
  rw [e3]
  have r13 := ReadInto_trans r12 (by rw [zero_add]; exact r3) (by omega) (by omega)
  rw [show k + (r - k) + (avail - r) = avail by omega] at r13
  exact ⟨s3, buf3, rfl, r13⟩

theorem newFile_injective (c : Int) : Function.Injective (newFile c).dbnOf :=
  fun _ _ h => add_right_cancel h

theorem sampleFile_injective (c size : Int) : Function.Injective (sampleFile c size).dbnOf :=
  fun _ _ h => add_right_cancel h

theorem fsSeek_set (K : Errno) (s : FS) (d : Int) (hd : 0 ≤ d) :
    ∃ s1, fsSeek K s d SEEK_SET = Outcome.ok 0 s1 ∧ s1.curs = d ∧ s1.size = s.size ∧
      s1.disk = s.disk ∧ s1.dbnOf = s.dbnOf := by
  unfold fsSeek
  rw [if_neg (by omega), if_pos rfl]
  exact ⟨_, rfl, rfl, rfl, rfl, rfl⟩

/-- At or beyond the end of the file `fsRead` returns 0 and changes nothing. -/
theorem fsRead_at_end (K : Errno) (s : FS) (n : Int) (out : Mem)
    (hE : K.EBADCURS < 0) (hc : 0 ≤ s.curs) (heof : s.size ≤ s.curs) :
    fsRead K s n out = Outcome.ok (0, out) s := by
  unfold fsRead
  simp only [fsTell, bfsTell, fsSize, bfsGetSize]
  rw [if_neg (by omega), if_pos (by omega)]

/-- The scenario of the spec: on a new file, write 600 bytes `0xAB` at 0 (the
size becomes 600), seek to 100, write 50 bytes `0xCD`, seek to 0 and read 600
bytes: 100 bytes `0xAB`, 50 bytes `0xCD`, 450 bytes `0xAB`. -/
theorem scenario_overwrite (K : Errno) (s : FS) (out : Mem) (hE : K.EBADCURS < 0)
    (hinj : Function.Injective s.dbnOf) (hc : s.curs = 0) (hz : s.size = 0) :
    ∃ s1 s2 s3 s4 s5 out1,
      fsWrite K s 600 (fill 171) = Outcome.ok 0 s1 ∧ fsSize s1 = 600 ∧
      fsSeek K s1 100 SEEK_SET = Outcome.ok 0 s2 ∧
      fsWrite K s2 50 (fill 205) = Outcome.ok 0 s3 ∧
      fsSeek K s3 0 SEEK_SET = Outcome.ok 0 s4 ∧
      fsRead K s4 600 out = Outcome.ok (600, out1) s5 ∧
      ∀ i, 0 ≤ i → i < 600 → out1 i = if 100 ≤ i ∧ i < 150 then 205 else 171 := by
  obtain ⟨s1, e1, c1, z1, m1, f1⟩ := fsWrite_spec K s 600 (fill 171) hE (by omega)
    (by decide) (by omega)
  rw [hc, hz] at z1
  have z1a : s1.size = 600 := z1.trans (by decide)
  obtain ⟨s2, e2, c2, z2, d2, m2⟩ := fsSeek_set K s1 100 (by decide)
  obtain ⟨s3, e3, c3, z3, m3, f3⟩ := fsWrite_spec K s2 50 (fill 205) hE (by omega)
    (by decide) (by omega)
  rw [c2, z2, z1a] at z3
  have z3a : s3.size = 600 := z3.trans (by decide)
  obtain ⟨s4, e4, c4, z4, d4, m4⟩ := fsSeek_set K s3 0 (le_refl _)
  obtain ⟨s5, out1, e5, _, _, _, _, _, f5⟩ :=
    fsRead_spec K s4 600 out hE (by omega) (by omega) (by omega) (by decide)
  have hmin : min 600 (s4.size - s4.curs) = 600 := min_eq_left (by omega)
  rw [hmin] at e5 f5
  refine ⟨s1, s2, s3, s4, s5, out1, e1, z1a, e2, e3, e4, e5, fun i hi0 hi1 => ?_⟩
  have hinj2 : Function.Injective s2.dbnOf := by rw [m2, m1]; exact hinj
  rw [f5 i, if_pos (by omega), c4, fileByte_congr s3 s4 d4 m4, f3 hinj2, c2]
  by_cases hin : 100 ≤ i ∧ i < 150
  · rw [if_pos (by omega), if_pos hin]
    rfl
  · rw [if_neg (by omega), if_neg hin, fileByte_congr s1 s2 d2 m2, f1 hinj, hc,
      if_pos (by omega)]
    rfl

/-! ## The claims -/

/-- C1 (round trip). With the cursor at `c ≥ 0`, `fsWrite` of `n > 0` bytes `B`,
then `fsSeek` to `c` with `SEEK_SET`, then `fsRead` of `n` bytes: all three
return, the read returns `n`, and the first `n` bytes of the output buffer are
`B`. The cursor `c` need not be block-aligned and `n` is not bounded by a block.
Assumed: `c + n` and the size are `i32` values, the invalid-cursor marker is
negative, and distinct file blocks lie in distinct device blocks. -/
theorem fsWrite_fsSeek_fsRead_roundtrip (K : Errno) (s : FS) (n : Int) (B out : Mem)
    (hE : K.EBADCURS < 0) (hinj : Function.Injective s.dbnOf) (hc : 0 ≤ s.curs)
    (hn : 0 < n) (hfit : s.curs + n ≤ 2147483647) (hs : s.size ≤ 2147483647) :
    ∃ s1 s2 s3 out1, fsWrite K s n B = Outcome.ok 0 s1 ∧
      fsSeek K s1 s.curs SEEK_SET = Outcome.ok 0 s2 ∧
      fsRead K s2 n out = Outcome.ok (n, out1) s3 ∧
      ∀ i, 0 ≤ i → i < n → out1 i = B i := by
  obtain ⟨s1, e1, c1, z1, m1, f1⟩ := fsWrite_spec K s n B hE hc (le_of_lt hn) hfit
  obtain ⟨s2, e2, c2, z2, d2, m2⟩ := fsSeek_set K s1 s.curs hc
  have hz : s2.size = max s.size (s.curs + n) := z2.trans z1
  have hle : s.curs + n ≤ s2.size := by rw [hz]; exact le_max_right _ _
  have hmax : s2.size ≤ 2147483647 := by rw [hz]; exact max_le hs hfit
  obtain ⟨s3, out1, e3, _, _, _, _, _, f3⟩ :=
    fsRead_spec K s2 n out hE (by omega) (by omega) hmax (le_of_lt hn)
  have hmin : min n (s2.size - s2.curs) = n := min_eq_left (by omega)
  rw [hmin] at e3 f3
  refine ⟨s1, s2, s3, out1, e1, e2, e3, fun i hi0 hi1 => ?_⟩
  rw [f3 i, if_pos (by omega), c2, fileByte_congr s1 s2 d2 m2, f1 hinj, if_pos (by omega)]
  congr 1
  omega

theorem fsWrite_fsSeek_fsRead_roundtrip_witness :
    exErrno.EBADCURS < 0 ∧ Function.Injective (newFile 700).dbnOf ∧ 0 ≤ (newFile 700).curs ∧
    (0 : Int) < 1000 ∧ (newFile 700).curs + 1000 ≤ 2147483647 ∧
    (newFile 700).size ≤ 2147483647 ∧
    ∃ s1 s2 s3 out1, fsWrite exErrno (newFile 700) 1000 (fun i => i % 100) = Outcome.ok 0 s1 ∧
      fsSeek exErrno s1 (newFile 700).curs SEEK_SET = Outcome.ok 0 s2 ∧
      fsRead exErrno s2 1000 (fill 0) = Outcome.ok (1000, out1) s3 ∧
      ∀ i, 0 ≤ i → i < 1000 → out1 i = (fun i => i % 100) i :=
  ⟨by decide, newFile_injective 700, by decide, by decide, by decide, by decide,
    fsWrite_fsSeek_fsRead_roundtrip exErrno (newFile 700) 1000 (fun i => i % 100) (fill 0)
      (by decide) (newFile_injective 700) (by decide) (by decide) (by decide) (by decide)⟩

/-- C2 (read content). On a file of size `s` with the cursor at `c`, `0 ≤ c < s`,
and `n ≥ 0`, `fsRead` returns some `k`, and the first `k` bytes of the buffer
are the bytes of the file at the positions `c, c+1, ..., c+k-1`; the byte of the
file at position `p` is byte `p % 512` of the block that `bfsRead` gives for
block `p / 512` (`fileByte`). Assumed: the size is an `i32` value and the
invalid-cursor marker is negative. -/
theorem fsRead_content (K : Errno) (s : FS) (n : Int) (out : Mem)
    (hE : K.EBADCURS < 0) (hc : 0 ≤ s.curs) (hlt : s.curs < s.size)
    (hs : s.size ≤ 2147483647) (hn : 0 ≤ n) :
    ∃ k s1 out1, fsRead K s n out = Outcome.ok (k, out1) s1 ∧
      ∀ i, 0 ≤ i → i < k → out1 i = fileByte s (s.curs + i) := by
  obtain ⟨s1, out1, e, _, _, _, _, _, f⟩ := fsRead_spec K s n out hE hc hlt hs hn
  refine ⟨_, s1, out1, e, fun i hi0 hi1 => ?_⟩
  rw [f i, if_pos (by omega), show i - 0 = i by omega]

theorem fsRead_content_witness :
    exErrno.EBADCURS < 0 ∧ 0 ≤ (sampleFile 510 2000).curs ∧
    (sampleFile 510 2000).curs < (sampleFile 510 2000).size ∧
    (sampleFile 510 2000).size ≤ 2147483647 ∧ (0 : Int) ≤ 1200 ∧
    ∃ k s1 out1, fsRead exErrno (sampleFile 510 2000) 1200 (fill 0) = Outcome.ok (k, out1) s1 ∧
      ∀ i, 0 ≤ i → i < k →
        out1 i = fileByte (sampleFile 510 2000) ((sampleFile 510 2000).curs + i) :=
  ⟨by decide, by decide, by decide, by decide, by decide,
    fsRead_content exErrno (sampleFile 510 2000) 1200 (fill 0)
      (by decide) (by decide) (by decide) (by decide) (by decide)⟩

/-- C3 (no corruption outside the written range). `fsWrite` of `n ≥ 0` bytes at
the cursor `c ≥ 0` returns, and every byte of the file whose position lies
outside `[c, c+n)` has the value it had before, in the blocks the write touches
as in all others. Assumed: `c + n` is an `i32` value, the invalid-cursor marker
is negative, and distinct file blocks lie in distinct device blocks. -/
theorem fsWrite_frame (K : Errno) (s : FS) (n : Int) (B : Mem)
    (hE : K.EBADCURS < 0) (hinj : Function.Injective s.dbnOf) (hc : 0 ≤ s.curs)
    (hn : 0 ≤ n) (hfit : s.curs + n ≤ 2147483647) :
    ∃ s1, fsWrite K s n B = Outcome.ok 0 s1 ∧
      ∀ p, ¬ (s.curs ≤ p ∧ p < s.curs + n) → fileByte s1 p = fileByte s p := by
  obtain ⟨s1, e1, _, _, _, f1⟩ := fsWrite_spec K s n B hE hc hn hfit
  refine ⟨s1, e1, fun p hp => ?_⟩
  rw [f1 hinj p, if_neg hp]

theorem fsWrite_frame_witness :
    exErrno.EBADCURS < 0 ∧ Function.Injective (sampleFile 1 512).dbnOf ∧
    0 ≤ (sampleFile 1 512).curs ∧ (0 : Int) ≤ 3 ∧ (sampleFile 1 512).curs + 3 ≤ 2147483647 ∧
    ∃ s1, fsWrite exErrno (sampleFile 1 512) 3 (fill 9) = Outcome.ok 0 s1 ∧
      ∀ p, ¬ ((sampleFile 1 512).curs ≤ p ∧ p < (sampleFile 1 512).curs + 3) →
        fileByte s1 p = fileByte (sampleFile 1 512) p :=
  ⟨by decide, sampleFile_injective 1 512, by decide, by decide, by decide,
    fsWrite_frame exErrno (sampleFile 1 512) 3 (fill 9)
      (by decide) (sampleFile_injective 1 512) (by decide) (by decide) (by decide)⟩

/-- C4 (read count). On a file of size `s` with the cursor at `c`, `0 ≤ c < s`,
and `n ≥ 0`, `fsRead` returns exactly `min n (s - c)` and leaves the cursor at
`c + min n (s - c)`. Assumed: the size is an `i32` value and the invalid-cursor
marker is negative. -/
theorem fsRead_count (K : Errno) (s : FS) (n : Int) (out : Mem)
    (hE : K.EBADCURS < 0) (hc : 0 ≤ s.curs) (hlt : s.curs < s.size)
    (hs : s.size ≤ 2147483647) (hn : 0 ≤ n) :
    ∃ s1 out1, fsRead K s n out = Outcome.ok (min n (s.size - s.curs), out1) s1 ∧
      fsTell s1 = s.curs + min n (s.size - s.curs) := by
  obtain ⟨s1, out1, e, hcur, _⟩ := fsRead_spec K s n out hE hc hlt hs hn
  exact ⟨s1, out1, e, hcur⟩

theorem fsRead_count_witness :
    exErrno.EBADCURS < 0 ∧ 0 ≤ (sampleFile 510 2000).curs ∧
    (sampleFile 510 2000).curs < (sampleFile 510 2000).size ∧
    (sampleFile 510 2000).size ≤ 2147483647 ∧ (0 : Int) ≤ 5000 ∧
    ∃ s1 out1, fsRead exErrno (sampleFile 510 2000) 5000 (fill 0) =
        Outcome.ok (min 5000 ((sampleFile 510 2000).size - (sampleFile 510 2000).curs), out1) s1 ∧
      fsTell s1 = (sampleFile 510 2000).curs
        + min 5000 ((sampleFile 510 2000).size - (sampleFile 510 2000).curs) :=
  ⟨by decide, by decide, by decide, by decide, by decide,
    fsRead_count exErrno (sampleFile 510 2000) 5000 (fill 0)
      (by decide) (by decide) (by decide) (by decide) (by decide)⟩

/-- C5 (size after write). `fsWrite` of `n ≥ 0` bytes at the cursor `c ≥ 0` on a
file of size `s` returns with the size `max s (c + n)`: the new cursor when
`c + n > s`, the old size when `c + n ≤ s`. Assumed: `c + n` is an `i32` value
and the invalid-cursor marker is negative. -/
theorem fsWrite_size (K : Errno) (s : FS) (n : Int) (B : Mem)
    (hE : K.EBADCURS < 0) (hc : 0 ≤ s.curs) (hn : 0 ≤ n)
    (hfit : s.curs + n ≤ 2147483647) :
    ∃ s1, fsWrite K s n B = Outcome.ok 0 s1 ∧ fsSize s1 = max s.size (s.curs + n) ∧
      (s.curs + n > s.size → fsSize s1 = fsTell s1) ∧
      (s.curs + n ≤ s.size → fsSize s1 = s.size) := by
  obtain ⟨s1, e1, c1, z1, _, _⟩ := fsWrite_spec K s n B hE hc hn hfit
  refine ⟨s1, e1, z1, fun h => ?_, fun h => ?_⟩
  · show s1.size = s1.curs
    rw [z1, c1]
    exact max_eq_right (by omega)
  · show s1.size = s.size
    rw [z1]
    exact max_eq_left h

theorem fsWrite_size_witness :
    exErrno.EBADCURS < 0 ∧ 0 ≤ (sampleFile 100 600).curs ∧ (0 : Int) ≤ 1000 ∧
    (sampleFile 100 600).curs + 1000 ≤ 2147483647 ∧
    ∃ s1, fsWrite exErrno (sampleFile 100 600) 1000 (fill 9) = Outcome.ok 0 s1 ∧
      fsSize s1 = max (sampleFile 100 600).size ((sampleFile 100 600).curs + 1000) ∧
      ((sampleFile 100 600).curs + 1000 > (sampleFile 100 600).size → fsSize s1 = fsTell s1) ∧
      ((sampleFile 100 600).curs + 1000 ≤ (sampleFile 100 600).size →
        fsSize s1 = (sampleFile 100 600).size) :=
  ⟨by decide, by decide, by decide, by decide,
    fsWrite_size exErrno (sampleFile 100 600) 1000 (fill 9)
      (by decide) (by decide) (by decide) (by decide)⟩

/-- C6 (no short writes). `fsWrite` of `n ≥ 0` bytes at the cursor `c ≥ 0`
returns 0 and leaves the cursor at exactly `c + n`. Assumed: `c + n` is an
`i32` value and the invalid-cursor marker is negative. -/
theorem fsWrite_no_short_write (K : Errno) (s : FS) (n : Int) (B : Mem)
    (hE : K.EBADCURS < 0) (hc : 0 ≤ s.curs) (hn : 0 ≤ n)
    (hfit : s.curs + n ≤ 2147483647) :
    ∃ s1, fsWrite K s n B = Outcome.ok 0 s1 ∧ fsTell s1 = s.curs + n := by
  obtain ⟨s1, e1, c1, _⟩ := fsWrite_spec K s n B hE hc hn hfit
  exact ⟨s1, e1, c1⟩

theorem fsWrite_no_short_write_witness :
    exErrno.EBADCURS < 0 ∧ 0 ≤ (newFile 5).curs ∧ (0 : Int) ≤ 2048 ∧
    (newFile 5).curs + 2048 ≤ 2147483647 ∧
    ∃ s1, fsWrite exErrno (newFile 5) 2048 (fill 9) = Outcome.ok 0 s1 ∧
      fsTell s1 = (newFile 5).curs + 2048 :=
  ⟨by decide, by decide, by decide, by decide,
    fsWrite_no_short_write exErrno (newFile 5) 2048 (fill 9)
      (by decide) (by decide) (by decide) (by decide)⟩

/-- C7 (end of file is not an error). With the cursor at `c ≥ 0` at or beyond the
size `s` (`c ≥ s`), `fsRead` of any length `n` returns 0 and does not abort; the
state after the call is the state before it (same cursor, no block read, no
collaborator called) and the buffer is the buffer before it. Assumed: the
invalid-cursor marker is negative. -/
theorem fsRead_eof (K : Errno) (s : FS) (n : Int) (out : Mem)
    (hE : K.EBADCURS < 0) (hc : 0 ≤ s.curs) (heof : s.size ≤ s.curs) :
    fsRead K s n out = Outcome.ok (0, out) s :=
  fsRead_at_end K s n out hE hc heof

theorem fsRead_eof_witness :
    exErrno.EBADCURS < 0 ∧ 0 ≤ (newFile 0).curs ∧ (newFile 0).size ≤ (newFile 0).curs ∧
    fsRead exErrno (newFile 0) 100 (fill 0) = Outcome.ok (0, fill 0) (newFile 0) :=
  ⟨by decide, by decide, by decide,
    fsRead_eof exErrno (newFile 0) 100 (fill 0) (by decide) (by decide) (by decide)⟩

/-- C8 as stated fails: on a new file (size 0), `fsSeek` to position 1 succeeds,
and `fsRead` of 5 bytes then returns 0, which is more than `size - cursor = -1`. -/
theorem fsRead_bounds_counterexample :
    fsSeek exErrno (newFile 0) 1 SEEK_SET = Outcome.ok 0 (newFile 1) ∧
    fsRead exErrno (newFile 1) 5 (fill 0) = Outcome.ok (0, fill 0) (newFile 1) ∧
    ¬ ((0 : Int) ≤ (newFile 1).size - (newFile 1).curs) :=
  ⟨rfl, rfl, by decide⟩

/-- C8 amended (read bounds). For every cursor `c ≥ 0`, size `s` and `n ≥ 0`,
`fsRead` returns a count `k` with `k ≤ max 0 (s - c)` and `k ≥ min n (s - c)`:
beyond the end of the file it returns 0. Assumed: the size is an `i32` value and
the invalid-cursor marker is negative. -/
theorem fsRead_bounds (K : Errno) (s : FS) (n : Int) (out : Mem)
    (hE : K.EBADCURS < 0) (hc : 0 ≤ s.curs) (hs : s.size ≤ 2147483647) (hn : 0 ≤ n) :
    ∃ k s1 out1, fsRead K s n out = Outcome.ok (k, out1) s1 ∧
      k ≤ max 0 (s.size - s.curs) ∧ min n (s.size - s.curs) ≤ k := by
  by_cases hlt : s.curs < s.size
  · obtain ⟨s1, out1, e, _⟩ := fsRead_spec K s n out hE hc hlt hs hn
    refine ⟨_, s1, out1, e, ?_, le_refl _⟩
    exact le_trans (min_le_right _ _) (le_max_right _ _)
  · refine ⟨0, s, out, fsRead_at_end K s n out hE hc (by omega), le_max_left _ _, ?_⟩
    exact le_trans (min_le_right _ _) (by omega)

theorem fsRead_bounds_witness :
    exErrno.EBADCURS < 0 ∧ 0 ≤ (sampleFile 700 600).curs ∧
    (sampleFile 700 600).size ≤ 2147483647 ∧ (0 : Int) ≤ 50 ∧
    ∃ k s1 out1, fsRead exErrno (sampleFile 700 600) 50 (fill 0) = Outcome.ok (k, out1) s1 ∧
      k ≤ max 0 ((sampleFile 700 600).size - (sampleFile 700 600).curs) ∧
      min 50 ((sampleFile 700 600).size - (sampleFile 700 600).curs) ≤ k :=
  ⟨by decide, by decide, by decide, by decide,
    fsRead_bounds exErrno (sampleFile 700 600) 50 (fill 0)
      (by decide) (by decide) (by decide) (by decide)⟩

/-- C9 (seek modes). On a file with cursor `c` and size `s`, for an offset
`d ≥ 0`: after `fsSeek` with `SEEK_SET`, `fsTell` gives `d`; with `SEEK_CUR`,
`c + d`; with `SEEK_END`, `s + d`. Assumed: `c + d` and `s + d` are `i32`
values. -/
theorem fsSeek_modes (K : Errno) (s : FS) (d : Int) (hd : 0 ≤ d)
    (hcur : isI32 (s.curs + d)) (hend : isI32 (s.size + d)) :
    (∃ s1, fsSeek K s d SEEK_SET = Outcome.ok 0 s1 ∧ fsTell s1 = d) ∧
    (∃ s1, fsSeek K s d SEEK_CUR = Outcome.ok 0 s1 ∧ fsTell s1 = s.curs + d) ∧
    (∃ s1, fsSeek K s d SEEK_END = Outcome.ok 0 s1 ∧ fsTell s1 = s.size + d) := by
  refine ⟨?_, ?_, ?_⟩
  · unfold fsSeek
    rw [if_neg (by omega), if_pos rfl]
    exact ⟨_, rfl, rfl⟩
  · rw [fsSeek_cur K s d hd]
    exact ⟨_, rfl, add32_eq _ _ hcur⟩
  · unfold fsSeek
    rw [if_neg (by omega), if_neg (by decide), if_neg (by decide), if_pos rfl]
    exact ⟨_, rfl, add32_eq _ _ hend⟩

theorem fsSeek_modes_witness :
    (0 : Int) ≤ 40 ∧ isI32 ((sampleFile 700 600).curs + 40) ∧
    isI32 ((sampleFile 700 600).size + 40) ∧
    (∃ s1, fsSeek exErrno (sampleFile 700 600) 40 SEEK_SET = Outcome.ok 0 s1 ∧ fsTell s1 = 40) ∧
    (∃ s1, fsSeek exErrno (sampleFile 700 600) 40 SEEK_CUR = Outcome.ok 0 s1 ∧
      fsTell s1 = (sampleFile 700 600).curs + 40) ∧
    (∃ s1, fsSeek exErrno (sampleFile 700 600) 40 SEEK_END = Outcome.ok 0 s1 ∧
      fsTell s1 = (sampleFile 700 600).size + 40) :=
  ⟨by decide, by unfold isI32; decide, by unfold isI32; decide,
    fsSeek_modes exErrno (sampleFile 700 600) 40 (by decide)
      (by unfold isI32; decide) (by unfold isI32; decide)⟩

/-- C10 (seek failure and atomicity). `fsSeek` with offset `d` and mode `whence`
ends in `FATAL` exactly when `d < 0` or `whence` is none of `SEEK_SET`,
`SEEK_CUR`, `SEEK_END`; a negative `d` is fatal (`EBADCURS`) whatever the mode;
and whenever `fsSeek` ends in `FATAL` the state, so the cursor and the size, is
the state before the call. -/
theorem fsSeek_failure (K : Errno) (s : FS) (d whence : Int) :
    ((∃ code s1, fsSeek K s d whence = Outcome.fatal code s1) ↔
      (d < 0 ∨ ¬ (whence = SEEK_SET ∨ whence = SEEK_CUR ∨ whence = SEEK_END))) ∧
    (d < 0 → fsSeek K s d whence = Outcome.fatal K.EBADCURS s) ∧
    (∀ code s1, fsSeek K s d whence = Outcome.fatal code s1 →
      s1 = s ∧ fsTell s1 = fsTell s ∧ fsSize s1 = fsSize s) := by
  unfold fsSeek FATAL
  by_cases h0 : d < 0
  · rw [if_pos h0]
    refine ⟨⟨fun _ => Or.inl h0, fun _ => ⟨_, _, rfl⟩⟩, fun _ => rfl, fun code s1 h => ?_⟩
    injection h with _ hs
    subst hs
    exact ⟨rfl, rfl, rfl⟩
  · rw [if_neg h0]
    by_cases h1 : whence = SEEK_SET
    · rw [if_pos h1]
      refine ⟨⟨fun ⟨_, _, h⟩ => (by cases h), fun h => ?_⟩, fun h => absurd h h0,
        fun _ _ h => (by cases h)⟩
      rcases h with h | h
      · exact absurd h h0
      · exact absurd (Or.inl h1) h
    · rw [if_neg h1]
      by_cases h2 : whence = SEEK_CUR
      · rw [if_pos h2]
        refine ⟨⟨fun ⟨_, _, h⟩ => (by cases h), fun h => ?_⟩, fun h => absurd h h0,
          fun _ _ h => (by cases h)⟩
        rcases h with h | h
        · exact absurd h h0
        · exact absurd (Or.inr (Or.inl h2)) h
      · rw [if_neg h2]
        by_cases h3 : whence = SEEK_END
        · rw [if_pos h3]
          refine ⟨⟨fun ⟨_, _, h⟩ => (by cases h), fun h => ?_⟩, fun h => absurd h h0,
            fun _ _ h => (by cases h)⟩
          rcases h with h | h
          · exact absurd h h0
          · exact absurd (Or.inr (Or.inr h3)) h
        · rw [if_neg h3]
          refine ⟨⟨fun _ => Or.inr ?_, fun _ => ⟨_, _, rfl⟩⟩, fun h => absurd h h0,
            fun code s1 h => ?_⟩
          · rintro (h | h | h)
            · exact h1 h
            · exact h2 h
            · exact h3 h
          · injection h with _ hs
            subst hs
            exact ⟨rfl, rfl, rfl⟩

/-- C11 as stated fails: `fsSeek` to position 5 on a new file succeeds and returns
0, while `fsTell` immediately afterwards returns 5. -/
theorem fsSeek_return_counterexample :
    fsSeek exErrno (newFile 0) 5 SEEK_SET = Outcome.ok 0 (newFile 5) ∧
    fsTell (newFile 5) = 5 ∧ (0 : Int) ≠ fsTell (newFile 5) :=
  ⟨rfl, rfl, by decide⟩

/-- C11 amended (seek return value). Every `fsSeek` with offset `d ≥ 0` and
`whence` one of `SEEK_SET`, `SEEK_CUR`, `SEEK_END` succeeds and returns 0, as the
comment of the source says ("On success, return 0"); the new cursor is not
returned, it is what `fsTell` gives afterwards. -/
theorem fsSeek_returns_zero (K : Errno) (s : FS) (d whence : Int) (hd : 0 ≤ d)
    (hw : whence = SEEK_SET ∨ whence = SEEK_CUR ∨ whence = SEEK_END) :
    ∃ s1, fsSeek K s d whence = Outcome.ok 0 s1 ∧
      ∀ v s2, fsSeek K s d whence = Outcome.ok v s2 → v = 0 := by
  have h : ∃ s1, fsSeek K s d whence = Outcome.ok 0 s1 := by
    unfold fsSeek
    rw [if_neg (by omega)]
    rcases hw with h | h | h
    · rw [if_pos h]
      exact ⟨_, rfl⟩
    · rw [h, if_neg (by decide), if_pos rfl]
      exact ⟨_, rfl⟩
    · rw [h, if_neg (by decide), if_neg (by decide), if_pos rfl]
      exact ⟨_, rfl⟩
  obtain ⟨s1, e⟩ := h
  refine ⟨s1, e, fun v s2 e2 => ?_⟩
  rw [e] at e2
  injection e2 with hv _
  exact hv.symm

theorem fsSeek_returns_zero_witness :
    (0 : Int) ≤ 40 ∧ (SEEK_END = SEEK_SET ∨ SEEK_END = SEEK_CUR ∨ SEEK_END = SEEK_END) ∧
    ∃ s1, fsSeek exErrno (sampleFile 700 600) 40 SEEK_END = Outcome.ok 0 s1 ∧
      ∀ v s2, fsSeek exErrno (sampleFile 700 600) 40 SEEK_END = Outcome.ok v s2 → v = 0 :=
  ⟨by decide, Or.inr (Or.inr rfl),
    fsSeek_returns_zero exErrno (sampleFile 700 600) 40 SEEK_END (by decide)
      (Or.inr (Or.inr rfl))⟩

/-- C15 (position translation). For every position `p ≥ 0`, `fsCursorPosToFdn p`
is the floor of `p / BYTESPERBLOCK` (the one `f` with
`f * BYTESPERBLOCK ≤ p < (f + 1) * BYTESPERBLOCK`), and with the offset
`p % BYTESPERBLOCK` of `fsRead` and `fsWrite` (the `%` of C) it gives back `p`:
`fsCursorPosToFdn p * BYTESPERBLOCK + p % BYTESPERBLOCK = p`, with
`0 ≤ p % BYTESPERBLOCK < BYTESPERBLOCK`. -/
theorem fsCursorPosToFdn_translation (p : Int) (hp : 0 ≤ p) :
    fsCursorPosToFdn p = ⌊(p : ℚ) / (BYTESPERBLOCK : ℚ)⌋ ∧
    fsCursorPosToFdn p * BYTESPERBLOCK ≤ p ∧ p < (fsCursorPosToFdn p + 1) * BYTESPERBLOCK ∧
    fsCursorPosToFdn p * BYTESPERBLOCK + Int.tmod p BYTESPERBLOCK = p ∧
    0 ≤ Int.tmod p BYTESPERBLOCK ∧ Int.tmod p BYTESPERBLOCK < BYTESPERBLOCK := by
  rw [tmod_block_eq p hp, fsCursorPosToFdn_eq p hp]
  unfold BYTESPERBLOCK
  refine ⟨?_, by omega, by omega, by omega, by omega, by omega⟩
  have h := Rat.floor_intCast_div_natCast p 512
  simpa using h.symm

theorem fsCursorPosToFdn_translation_witness :
    (0 : Int) ≤ 1300 ∧
    fsCursorPosToFdn 1300 = ⌊((1300 : Int) : ℚ) / (BYTESPERBLOCK : ℚ)⌋ ∧
    fsCursorPosToFdn 1300 * BYTESPERBLOCK ≤ 1300 ∧
    1300 < (fsCursorPosToFdn 1300 + 1) * BYTESPERBLOCK ∧
    fsCursorPosToFdn 1300 * BYTESPERBLOCK + Int.tmod 1300 BYTESPERBLOCK = 1300 ∧
    0 ≤ Int.tmod 1300 BYTESPERBLOCK ∧ Int.tmod 1300 BYTESPERBLOCK < BYTESPERBLOCK :=
  ⟨by decide, fsCursorPosToFdn_translation 1300 (by decide)⟩

/-- C19 (read stays inside the caller's buffer). For every file, cursor `c ≥ 0`
and `n ≥ 0`, `fsRead` returns a count `k` with `0 ≤ k ≤ n`, and every position of
the buffer outside `0 .. k-1` (so every position `≥ k`) holds after the call the
value it held before, whatever phases ran. Assumed: the size is an `i32` value
and the invalid-cursor marker is negative. -/
theorem fsRead_buffer_frame (K : Errno) (s : FS) (n : Int) (out : Mem)
    (hE : K.EBADCURS < 0) (hc : 0 ≤ s.curs) (hs : s.size ≤ 2147483647) (hn : 0 ≤ n) :
    ∃ k s1 out1, fsRead K s n out = Outcome.ok (k, out1) s1 ∧ 0 ≤ k ∧ k ≤ n ∧
      ∀ i, ¬ (0 ≤ i ∧ i < k) → out1 i = out i := by
  by_cases hlt : s.curs < s.size
  · obtain ⟨s1, out1, e, _, _, _, _, _, f⟩ := fsRead_spec K s n out hE hc hlt hs hn
    refine ⟨_, s1, out1, e, le_min hn (by omega), min_le_left _ _, fun i hi => ?_⟩
    rw [f i, if_neg (by omega)]
  · exact ⟨0, s, out, fsRead_at_end K s n out hE hc (by omega), le_refl _, hn,
      fun _ _ => rfl⟩

theorem fsRead_buffer_frame_witness :
    exErrno.EBADCURS < 0 ∧ 0 ≤ (sampleFile 510 2000).curs ∧
    (sampleFile 510 2000).size ≤ 2147483647 ∧ (0 : Int) ≤ 1100 ∧
    ∃ k s1 out1, fsRead exErrno (sampleFile 510 2000) 1100 (fill 9) = Outcome.ok (k, out1) s1 ∧
      0 ≤ k ∧ k ≤ 1100 ∧ ∀ i, ¬ (0 ≤ i ∧ i < k) → out1 i = fill 9 i :=
  ⟨by decide, by decide, by decide, by decide,
    fsRead_buffer_frame exErrno (sampleFile 510 2000) 1100 (fill 9)
      (by decide) (by decide) (by decide) (by decide)⟩

/-- C20 (writes concatenate). From the same state with the cursor at `c ≥ 0`,
`fsWrite` of `n1 ≥ 0` bytes `B1` followed by `fsWrite` of `n2 ≥ 0` bytes `B2`, and
the single `fsWrite` of the `n1 + n2` bytes `B1 ++ B2`, all return and end with the
same cursor, the same size and the same byte of the file at every position.
Assumed: `c + n1 + n2` is an `i32` value, the invalid-cursor marker is negative,
and distinct file blocks lie in distinct device blocks. -/
theorem fsWrite_concat (K : Errno) (s : FS) (n1 n2 : Int) (B1 B2 : Mem)
    (hE : K.EBADCURS < 0) (hinj : Function.Injective s.dbnOf) (hc : 0 ≤ s.curs)
    (hn1 : 0 ≤ n1) (hn2 : 0 ≤ n2) (hfit : s.curs + n1 + n2 ≤ 2147483647) :
    ∃ sa sb sc, fsWrite K s n1 B1 = Outcome.ok 0 sa ∧ fsWrite K sa n2 B2 = Outcome.ok 0 sb ∧
      fsWrite K s (n1 + n2) (concatMem B1 n1 B2) = Outcome.ok 0 sc ∧
      fsTell sb = fsTell sc ∧ fsSize sb = fsSize sc ∧
      ∀ p, fileByte sb p = fileByte sc p := by
  obtain ⟨sa, ea, ca, za, ma, fa⟩ := fsWrite_spec K s n1 B1 hE hc hn1 (by omega)
  obtain ⟨sb, eb, cb, zb, mb, fb⟩ := fsWrite_spec K sa n2 B2 hE (by omega) hn2 (by omega)
  obtain ⟨sc, ec, cc, zc, mc, fc⟩ :=
    fsWrite_spec K s (n1 + n2) (concatMem B1 n1 B2) hE hc (by omega) (by omega)
  refine ⟨sa, sb, sc, ea, eb, ec, ?_, ?_, fun p => ?_⟩
  · show sb.curs = sc.curs
    omega
  · show sb.size = sc.size
    rw [zb, zc, za, ca, max_assoc, max_eq_right (show s.curs + n1 ≤ s.curs + n1 + n2 by omega),
      add_assoc]
  · rw [fb (by rw [ma]; exact hinj) p, fc hinj p, fa hinj p, ca]
    unfold concatMem
    by_cases h2 : s.curs + n1 ≤ p ∧ p < s.curs + n1 + n2
    · rw [if_pos h2, if_pos (by omega), if_neg (by omega)]
      congr 1
      omega
    · rw [if_neg h2]
      by_cases h1 : s.curs ≤ p ∧ p < s.curs + n1
      · rw [if_pos h1, if_pos (by omega), if_pos (by omega)]
      · rw [if_neg h1, if_neg (by omega)]

theorem fsWrite_concat_witness :
    exErrno.EBADCURS < 0 ∧ Function.Injective (sampleFile 100 600).dbnOf ∧
    0 ≤ (sampleFile 100 600).curs ∧ (0 : Int) ≤ 500 ∧ (0 : Int) ≤ 700 ∧
    (sampleFile 100 600).curs + 500 + 700 ≤ 2147483647 ∧
    ∃ sa sb sc, fsWrite exErrno (sampleFile 100 600) 500 (fill 1) = Outcome.ok 0 sa ∧
      fsWrite exErrno sa 700 (fill 2) = Outcome.ok 0 sb ∧
      fsWrite exErrno (sampleFile 100 600) (500 + 700) (concatMem (fill 1) 500 (fill 2))
        = Outcome.ok 0 sc ∧
      fsTell sb = fsTell sc ∧ fsSize sb = fsSize sc ∧
      ∀ p, fileByte sb p = fileByte sc p :=
  ⟨by decide, sampleFile_injective 100 600, by decide, by decide, by decide, by decide,
    fsWrite_concat exErrno (sampleFile 100 600) 500 700 (fill 1) (fill 2)
      (by decide) (sampleFile_injective 100 600) (by decide) (by decide) (by decide)
      (by decide)⟩

/-! ## What `fsSeek` and `fsRead` leave alone -/

theorem SameFile_refl (s : FS) : SameFile s s := ⟨rfl, rfl, rfl, rfl⟩

theorem SameFile_trans {s s1 s2 : FS} (h1 : SameFile s s1) (h2 : SameFile s1 s2) :
    SameFile s s2 :=
  ⟨h2.1.trans h1.1, h2.2.1.trans h1.2.1, h2.2.2.1.trans h1.2.2.1, h2.2.2.2.trans h1.2.2.2⟩

theorem keeps_of_SameFile {α : Type} {s s1 : FS} (h : SameFile s s1) (o : Outcome α)
    (ho : o.keeps s1) : o.keeps s := by
  cases o with
  | ok v s2 => exact SameFile_trans h ho
  | fatal c s2 => exact SameFile_trans h ho
  | diverged => trivial

theorem keeps_bind {α β : Type} (s : FS) (x : Outcome α) (f : α → FS → Outcome β)
    (hx : x.keeps s) (hf : ∀ v s1, SameFile s s1 → (f v s1).keeps s) :
    (x.bind f).keeps s := by
  cases x with
  | ok v s1 => exact hf v s1 hx
  | fatal c s1 => exact hx
  | diverged => trivial

theorem fsSeek_keeps (K : Errno) (s : FS) (offset whence : Int) :
    (fsSeek K s offset whence).keeps s := by
  unfold fsSeek FATAL
  split
  · exact SameFile_refl s
  · split
    · exact SameFile_refl s
    · split
      · exact SameFile_refl s
      · split
        · exact SameFile_refl s
        · exact SameFile_refl s

theorem fsRead_first_keeps (K : Errno) (s : FS) (fbn offset avail : Int) (buf : Mem) :
    (fsRead_first K s fbn offset avail buf).keeps s := by
  unfold fsRead_first
  split
  · refine keeps_bind s _ _ ?_ (fun _ s1 h => h)
    exact @keeps_of_SameFile _ s (bfsRead s fbn tempBlock 0).2 (SameFile_refl s) _
      (fsSeek_keeps K _ _ _)
  · exact SameFile_refl s

theorem fsRead_full_keeps (K : Errno) :
    ∀ (fuel : Nat) (s : FS) (avail r b : Int) (buf : Mem),
      (fsRead_full K fuel s avail r b buf).keeps s := by
  intro fuel
  induction fuel with
  | zero => intro s avail r b buf; trivial
  | succ fuel ih =>
    intro s avail r b buf
    unfold fsRead_full
    split
    · refine keeps_bind s _ _ ?_ (fun _ s1 h => keeps_of_SameFile h _ (ih s1 _ _ _ _))
      exact @keeps_of_SameFile _ s (bfsRead s (fsFdToFdn s) buf b).2 (SameFile_refl s) _
        (fsSeek_keeps K _ _ _)
    · exact SameFile_refl s

theorem fsRead_last_keeps (K : Errno) (s : FS) (avail r b : Int) (buf : Mem) :
    (fsRead_last K s avail r b buf).keeps s := by
  unfold fsRead_last
  simp only []
  split
  · refine keeps_bind s _ _ ?_ (fun _ s1 h => h)
    exact @keeps_of_SameFile _ s (bfsRead s (fsFdToFdn s) tempBlock 0).2 (SameFile_refl s) _
      (fsSeek_keeps K _ _ _)
  · exact SameFile_refl s

/-- However `fsRead` ends, the file is as before. -/
theorem fsRead_keeps (K : Errno) (s : FS) (numb : Int) (buf : Mem) :
    (fsRead K s numb buf).keeps s := by
  unfold fsRead FATAL
  simp only []
  split
  · exact SameFile_refl s
  · split
    · exact SameFile_refl s
    · refine keeps_bind s _ _ (fsRead_first_keeps K s _ _ _ _) (fun a s1 h1 => ?_)
      refine keeps_bind s _ _ (keeps_of_SameFile h1 _ (fsRead_full_keeps K _ s1 _ _ _ _))
        (fun b s2 h2 => ?_)
      exact keeps_of_SameFile h2 _ (fsRead_last_keeps K s2 _ _ _ _)

/-! ## The cursor invariant -/

theorem returned_eq_some {α : Type} (o : Outcome α) (s1 : FS) (h : o.returned = some s1) :
    ∃ v, o = Outcome.ok v s1 := by
  cases o with
  | ok v s2 =>
    have e : s2 = s1 := Option.some.inj h
    exact ⟨v, by rw [e]⟩
  | fatal c s2 => cases h
  | diverged => cases h

/-- A call that fits and returns keeps the cursor and the size in `0 .. 2^31-1`. -/
theorem applyOp_inv (K : Errno) (hE : K.EBADCURS < 0) (s s1 : FS) (op : Op)
    (hc : 0 ≤ s.curs) (hz : 0 ≤ s.size) (hs : s.size ≤ 2147483647) (hfit : op.fits s)
    (h : applyOp K s op = some s1) :
    0 ≤ s1.curs ∧ 0 ≤ s1.size ∧ s1.size ≤ 2147483647 := by
  cases op with
  | seek d w =>
    obtain ⟨v, e⟩ := returned_eq_some _ _ h
    have hk : SameFile s s1 := by
      have := fsSeek_keeps K s d w
      rw [e] at this
      exact this
    refine ⟨?_, by rw [hk.1]; exact hz, by rw [hk.1]; exact hs⟩
    unfold fsSeek FATAL at e
    by_cases h0 : d < 0
    · rw [if_pos h0] at e
      cases e
    · rw [if_neg h0] at e
      by_cases h1 : w = SEEK_SET
      · rw [if_pos h1] at e
        injection e with _ e2
        rw [← e2]
        show 0 ≤ d
        omega
      · rw [if_neg h1] at e
        by_cases h2 : w = SEEK_CUR
        · rw [if_pos h2] at e
          injection e with _ e2
          rw [← e2]
          show 0 ≤ add32 s.curs d
          rw [add32_eq _ _ (hfit.1 h2)]
          omega
        · rw [if_neg h2] at e
          by_cases h3 : w = SEEK_END
          · rw [if_pos h3] at e
            injection e with _ e2
            rw [← e2]
            show 0 ≤ add32 s.size d
            rw [add32_eq _ _ (hfit.2 h3)]
            omega
          · rw [if_neg h3] at e
            cases e
  | read n buf =>
    obtain ⟨v, e⟩ := returned_eq_some _ _ h
    have hn : 0 ≤ n := hfit
    by_cases hlt : s.curs < s.size
    · obtain ⟨s2, out, e2, c2, z2, _⟩ := fsRead_spec K s n buf hE hc hlt hs hn
      rw [e2] at e
      injection e with _ e3
      rw [← e3, c2, z2]
      exact ⟨add_nonneg hc (le_min hn (by omega)), hz, hs⟩
    · rw [fsRead_at_end K s n buf hE hc (by omega)] at e
      injection e with _ e3
      rw [← e3]
      exact ⟨hc, hz, hs⟩
  | write n buf =>
    obtain ⟨v, e⟩ := returned_eq_some _ _ h
    obtain ⟨hn, hfit2⟩ : 0 ≤ n ∧ isI32 (s.curs + n) := hfit
    unfold isI32 at hfit2
    obtain ⟨s2, e2, c2, z2, _⟩ := fsWrite_spec K s n buf hE hc hn hfit2.2
    rw [e2] at e
    injection e with _ e3
    rw [← e3, c2, z2]
    exact ⟨by omega, le_trans hz (le_max_left _ _), max_le hs hfit2.2⟩

/-- Every state reached through calls that fit and return has the cursor and the
size in `0 .. 2^31-1`. -/
theorem runOps_inv (K : Errno) (hE : K.EBADCURS < 0) (ops : List Op) :
    ∀ (s s1 : FS), 0 ≤ s.curs → 0 ≤ s.size → s.size ≤ 2147483647 → fitsAll K s ops →
      runOps K s ops = some s1 → 0 ≤ s1.curs ∧ 0 ≤ s1.size ∧ s1.size ≤ 2147483647 := by
  induction ops with
  | nil =>
    intro s s1 hc hz hs _ h
    have e : s = s1 := Option.some.inj h
    rw [← e]
    exact ⟨hc, hz, hs⟩
  | cons op ops ih =>
    intro s s1 hc hz hs hf h
    unfold runOps at h
    cases ha : applyOp K s op with
    | none => rw [ha] at h; cases h
    | some s2 =>
      rw [ha] at h
      obtain ⟨c2, z2, m2⟩ := applyOp_inv K hE s s2 op hc hz hs hf.1 ha
      exact ih s2 s1 c2 z2 m2 (hf.2 s2 ha) h

theorem fitsAll_cons (K : Errno) (s s2 : FS) (op : Op) (ops : List Op) (h1 : op.fits s)
    (h2 : applyOp K s op = some s2) (h3 : fitsAll K s2 ops) : fitsAll K s (op :: ops) := by
  refine ⟨h1, fun s1 h => ?_⟩
  rw [h2] at h
  have e : s2 = s1 := Option.some.inj h
  rw [← e]
  exact h3

/-- C13 (not-found is caller-visible, not fatal). For every name: when the lookup
collaborator (`bfsLookupFile` for `fsOpen`, `bfsCreateFile` for `fsCreate`) gives
`EFNF`, `fsOpen` / `fsCreate` returns `EFNF`, the only collaborator called is the
lookup (`bfsInumToFd` is not called) and the open-file table is as before;
otherwise it returns what `bfsInumToFd` derives from the identifier given by the
lookup. -/
theorem fsOpen_fsCreate_not_found (K : Errno) (d : Names) (fname : String) :
    ((bfsLookupFile d fname).1 = K.EFNF →
      (fsOpen K d fname).1 = K.EFNF ∧ (fsOpen K d fname).2.oft = d.oft ∧
      (fsOpen K d fname).2.ncalls = d.ncalls ++ [NameCall.bfsLookupFile fname]) ∧
    ((bfsLookupFile d fname).1 ≠ K.EFNF →
      fsOpen K d fname = bfsInumToFd (bfsLookupFile d fname).2 (bfsLookupFile d fname).1) ∧
    ((bfsCreateFile K d fname).1 = K.EFNF →
      (fsCreate K d fname).1 = K.EFNF ∧ (fsCreate K d fname).2.oft = d.oft ∧
      (fsCreate K d fname).2.ncalls = d.ncalls ++ [NameCall.bfsCreateFile fname]) ∧
    ((bfsCreateFile K d fname).1 ≠ K.EFNF →
      fsCreate K d fname
        = bfsInumToFd (bfsCreateFile K d fname).2 (bfsCreateFile K d fname).1) := by
  refine ⟨fun h => ?_, fun h => ?_, fun h => ?_, fun h => ?_⟩
  · unfold fsOpen
    simp only []
    rw [if_pos h]
    exact ⟨rfl, rfl, rfl⟩
  · unfold fsOpen
    simp only []
    rw [if_neg h]
  · unfold fsCreate
    simp only []
    rw [if_pos h]
    exact ⟨rfl, rfl, rfl⟩
  · unfold fsCreate
    simp only []
    rw [if_neg h]

theorem exOps_fitsAll : fitsAll exErrno (newFile 0) exOps :=
  fitsAll_cons exErrno (newFile 0) _ _ _
    ⟨fun h => absurd h (by decide), fun h => absurd h (by decide)⟩ rfl
    (fitsAll_cons exErrno _ _ _ _ ⟨by decide, by unfold isI32; decide⟩ rfl
      (fitsAll_cons exErrno _ _ _ _ (show (0 : Int) ≤ 300 by decide) rfl trivial))

/-- C14 (cursor stays valid). From a state with cursor `≥ 0` and size `≥ 0`,
through any sequence of `fsSeek`, `fsRead` and `fsWrite` calls that return, with
counts `≥ 0` and the sums formed for the cursor fitting in an `i32`, the cursor
of the state reached is `≥ 0`, and the test `cursorPos < 0 || cursorPos ==
EBADCURS` of `fsRead` and `fsWrite` is false there. Assumed: the size is an
`i32` value and the invalid-cursor marker is negative. -/
theorem cursor_stays_valid (K : Errno) (hE : K.EBADCURS < 0) (ops : List Op) (s s1 : FS)
    (hc : 0 ≤ s.curs) (hz : 0 ≤ s.size) (hs : s.size ≤ 2147483647)
    (hfit : fitsAll K s ops) (hrun : runOps K s ops = some s1) :
    0 ≤ fsTell s1 ∧ ¬ (fsTell s1 < 0 ∨ fsTell s1 = K.EBADCURS) := by
  obtain ⟨c1, _, _⟩ := runOps_inv K hE ops s s1 hc hz hs hfit hrun
  refine ⟨c1, fun h => ?_⟩
  have : fsTell s1 = s1.curs := rfl
  omega

theorem cursor_stays_valid_witness :
    exErrno.EBADCURS < 0 ∧ 0 ≤ (newFile 0).curs ∧ 0 ≤ (newFile 0).size ∧
    (newFile 0).size ≤ 2147483647 ∧ fitsAll exErrno (newFile 0) exOps ∧
    runOps exErrno (newFile 0) exOps = some exOpsEnd ∧
    0 ≤ fsTell exOpsEnd ∧ ¬ (fsTell exOpsEnd < 0 ∨ fsTell exOpsEnd = exErrno.EBADCURS) :=
  ⟨by decide, by decide, by decide, by decide, exOps_fitsAll, rfl,
    cursor_stays_valid exErrno (by decide) exOps (newFile 0) exOpsEnd
      (by decide) (by decide) (by decide) exOps_fitsAll rfl⟩

/-- C18 (seek and read change only the cursor). For every state, every `fsSeek`
that returns (whatever the mode, also to a position beyond the size) and every
`fsRead` that returns leave the size, the allocation and the content of every
block, so every byte of the file, as they were. -/
theorem fsSeek_fsRead_frame (K : Errno) (s : FS) (d whence n : Int) (buf : Mem) :
    (∀ v s1, fsSeek K s d whence = Outcome.ok v s1 →
      fsSize s1 = fsSize s ∧ s1.nblocks = s.nblocks ∧ s1.dbnOf = s.dbnOf ∧
      s1.disk = s.disk ∧ ∀ p, fileByte s1 p = fileByte s p) ∧
    (∀ v s1, fsRead K s n buf = Outcome.ok v s1 →
      fsSize s1 = fsSize s ∧ s1.nblocks = s.nblocks ∧ s1.dbnOf = s.dbnOf ∧
      s1.disk = s.disk ∧ ∀ p, fileByte s1 p = fileByte s p) := by
  constructor
  · intro v s1 e
    have h := fsSeek_keeps K s d whence
    rw [e] at h
    exact ⟨h.1, h.2.1, h.2.2.1, h.2.2.2, fileByte_congr s s1 h.2.2.2 h.2.2.1⟩
  · intro v s1 e
    have h := fsRead_keeps K s n buf
    rw [e] at h
    exact ⟨h.1, h.2.1, h.2.2.1, h.2.2.2, fileByte_congr s s1 h.2.2.2 h.2.2.1⟩

/-! ## The collaborator calls of `fsWrite` -/

theorem fsWrite_first_calls (K : Errno) (s : FS) (numb : Int) (buf : Mem)
    (hc : 0 ≤ s.curs) (hn : 0 ≤ numb) :
    ∀ r s1, fsWrite_first K s s.curs (Int.tmod s.curs BYTESPERBLOCK) numb buf
        = Outcome.ok r s1 →
      r.1 = firstCount s.curs numb ∧
      s1.calls = s.calls ++
        (if s.curs % 512 > 0 then mergeCalls s.dbnOf (s.curs / 512) else []) := by
  intro r s1
  rw [tmod_block_eq _ hc]
  have h1 : 0 ≤ s.curs % 512 := Int.emod_nonneg _ (by decide)
  have h2 : s.curs % 512 < 512 := Int.emod_lt_of_pos _ (by decide)
  unfold fsWrite_first firstCount
  by_cases ho : s.curs % 512 > 0
  · have hsub : sub32 BYTESPERBLOCK (s.curs % 512) = 512 - s.curs % 512 :=
      sub32_eq _ _ (by unfold isI32 BYTESPERBLOCK; omega)
    simp only [if_pos ho]
    rw [hsub]
    have hk0 : 0 ≤ (if 512 - s.curs % 512 > numb then numb else 512 - s.curs % 512) := by
      split <;> omega
    rw [fsSeek_cur _ _ _ hk0, fsCursorPosToFdn_eq _ hc]
    simp only [Outcome.bind, zero_add]
    intro h
    injection h with e1 e2
    rw [← e1, ← e2]
    refine ⟨rfl, ?_⟩
    simp [bioWrite, bfsRead, bfsFbnToDbn, mergeCalls]
  · simp only [if_neg ho]
    intro h
    injection h with e1 e2
    rw [← e1, ← e2]
    exact ⟨rfl, (List.append_nil _).symm⟩

theorem fsWrite_full_calls (K : Errno) (numb : Int) (buf : Mem) (hn : numb ≤ 2147483647) :
    ∀ (fuel : Nat) (s : FS) (w b : Int), 0 ≤ s.curs →
      0 ≤ w → w ≤ numb → s.curs + (numb - w) ≤ 2147483647 →
      ∀ r s1, fsWrite_full K fuel s numb w b buf = Outcome.ok r s1 →
        w ≤ r.1 ∧ (r.1 - w) % 512 = 0 ∧
        s1.calls = s.calls ++
          fullWriteCalls s.dbnOf (s.curs / 512) ((r.1 - w) / 512).toNat := by
  intro fuel
  induction fuel with
  | zero =>
    intro s w b _ _ _ _ r s1 h
    unfold fsWrite_full at h
    cases h
  | succ fuel ih =>
    intro s w b hc hw0 hw hfit r s1
    unfold fsWrite_full
    have hsub : sub32 numb w = numb - w := sub32_eq _ _ (by unfold isI32; omega)
    rw [hsub]
    by_cases hg : numb - w ≥ BYTESPERBLOCK
    · rw [if_pos hg]
      unfold BYTESPERBLOCK at hg
      simp only [fsFdToFdn, fsTell, bfsTell]
      rw [fsSeek_cur _ _ _ (by decide), fsCursorPosToFdn_eq _ hc,
        add32_eq w _ (by unfold isI32 BYTESPERBLOCK; omega)]
      simp only [Outcome.bind]
      have key : ∀ s0 : FS, s0.curs = s.curs + 512 → s0.dbnOf = s.dbnOf →
          s0.calls = s.calls ++
            [Call.bfsFbnToDbn (s.curs / 512), Call.bioWrite (s.dbnOf (s.curs / 512))] →
          fsWrite_full K fuel s0 numb (w + 512) (b + 512) buf = Outcome.ok r s1 →
          w ≤ r.1 ∧ (r.1 - w) % 512 = 0 ∧
          s1.calls = s.calls ++
            fullWriteCalls s.dbnOf (s.curs / 512) ((r.1 - w) / 512).toNat := by
        intro s0 h0c h0m h0l he
        obtain ⟨i1, i2, i3⟩ := ih s0 (w + 512) (b + 512) (by omega) (by omega) (by omega)
          (by omega) r s1 he
        refine ⟨by omega, by omega, ?_⟩
        have hm : ((r.1 - w) / 512).toNat = ((r.1 - (w + 512)) / 512).toNat + 1 := by omega
        rw [i3, h0l, h0m, h0c, hm, show (s.curs + 512) / 512 = s.curs / 512 + 1 by omega]
        simp [fullWriteCalls]
      refine key _ ?_ rfl ?_
      · show add32 s.curs BYTESPERBLOCK = _
        exact add32_eq _ _ (by unfold isI32 BYTESPERBLOCK; omega)
      · simp [bioWrite, bfsFbnToDbn]
    · rw [if_neg hg]
      intro h
      injection h with e1 e2
      rw [← e1, ← e2]
      refine ⟨le_refl _, by simp, ?_⟩
      simp [fullWriteCalls]

theorem fsWrite_last_calls (K : Errno) (s : FS) (numb w b : Int) (buf : Mem)
    (hc : 0 ≤ s.curs) (hw : w ≤ numb) (hfit : s.curs + (numb - w) ≤ 2147483647) :
    ∀ r s1, fsWrite_last K s numb w b buf = Outcome.ok r s1 →
      s1.calls = s.calls ++
        (if numb - w > 0 then mergeCalls s.dbnOf (s.curs / 512) else []) := by
  intro r s1
  unfold fsWrite_last
  have hsub : sub32 numb w = numb - w := sub32_eq _ _ (by unfold isI32; omega)
  rw [hsub]
  simp only []
  by_cases hg : numb - w > 0
  · simp only [if_pos hg]
    simp only [fsFdToFdn, fsTell, bfsTell]
    rw [fsSeek_cur _ _ _ (by omega), fsCursorPosToFdn_eq _ hc]
    simp only [Outcome.bind]
    intro h
    injection h with e1 e2
    rw [← e2]
    simp [bioWrite, bfsRead, bfsFbnToDbn, mergeCalls]
  · simp only [if_neg hg]
    intro h
    injection h with e1 e2
    rw [← e2]
    exact (List.append_nil _).symm

/-- The calls of `fsWrite`, and the allocation after it. -/
theorem fsWrite_calls (K : Errno) (s : FS) (numb : Int) (buf : Mem)
    (hE : K.EBADCURS < 0) (hc : 0 ≤ s.curs) (hn : 0 ≤ numb)
    (hfit : s.curs + numb ≤ 2147483647) :
    ∃ s1, fsWrite K s numb buf = Outcome.ok 0 s1 ∧
      s1.calls = s.calls ++ writeCalls s.dbnOf s.size s.curs numb ∧
      s1.nblocks = (if sub32 s.size s.curs < numb
        then max s.nblocks ((s.curs + numb) / 512 + 1) else s.nblocks) ∧
      s1.size = max s.size (s.curs + numb) := by
  obtain ⟨sf, ef, _, zf, _, _⟩ := fsWrite_spec K s numb buf hE hc hn hfit
  refine ⟨sf, ef, ?_, ?_, zf⟩
  all_goals
    unfold fsWrite at ef
    simp only [fsTell, bfsTell, fsSize, bfsGetSize] at ef
    rw [if_neg (by omega)] at ef
    obtain ⟨s0, hs0, h0c, h0m, h0n, h0l⟩ : ∃ s0,
        s0 = (if sub32 s.size s.curs < numb
          then bfsExtend s (fsCursorPosToFdn (add32 s.curs numb)) else s) ∧
        s0.curs = s.curs ∧ s0.dbnOf = s.dbnOf ∧
        s0.nblocks = (if sub32 s.size s.curs < numb
          then max s.nblocks ((s.curs + numb) / 512 + 1) else s.nblocks) ∧
        s0.calls = s.calls ++
          (if sub32 s.size s.curs < numb then [Call.bfsExtend ((s.curs + numb) / 512)]
            else []) := by
      refine ⟨_, rfl, ?_⟩
      have hL : fsCursorPosToFdn (add32 s.curs numb) = (s.curs + numb) / 512 := by
        rw [add32_eq _ _ (by unfold isI32; omega), fsCursorPosToFdn_eq _ (by omega)]
      by_cases hx : sub32 s.size s.curs < numb
      · rw [if_pos hx, if_pos hx, if_pos hx, hL]
        exact ⟨rfl, rfl, rfl, rfl⟩
      · rw [if_neg hx, if_neg hx, if_neg hx]
        exact ⟨rfl, rfl, rfl, (List.append_nil _).symm⟩
    rw [← hs0, ← h0c] at ef
    obtain ⟨k, s1, e1, w1, hk0, hk1, hal1⟩ :=
      fsWrite_first_spec K s0 numb buf (by omega) hn (by omega)
    obtain ⟨ck, l1⟩ := fsWrite_first_calls K s0 numb buf (by omega) hn _ _ e1
    rw [e1] at ef
    simp only [Outcome.bind] at ef
    obtain ⟨w, s2, e2, w2, hw0, hw1, hw2, hal2⟩ :=
      fsWrite_full_spec K numb buf (by omega) (numb.toNat + 1) s1 k k
        (by rw [w1.1]; omega) hk0 hk1 (by rw [w1.1]; omega) (by omega) (by omega)
    obtain ⟨_, hm2, l2⟩ := fsWrite_full_calls K numb buf (by omega) (numb.toNat + 1) s1 k k
        (by rw [w1.1]; omega) hk0 hk1 (by rw [w1.1]; omega) _ _ e2
    rw [e2] at ef
    simp only [Outcome.bind] at ef
    have w12 := Wrote_trans w1 (by rw [zero_add]; exact w2) hk0 (by omega)
    obtain ⟨s3, e3, w3⟩ :=
      fsWrite_last_spec K s2 numb w (k + (w - k)) buf (by omega)
        (by rw [w12.1]; omega) (by omega) hw1 hw2 (by rw [w12.1]; omega) hal2
    have l3 := fsWrite_last_calls K s2 numb w (k + (w - k)) buf
        (by rw [w12.1]; omega) hw1 (by rw [w12.1]; omega) _ _ e3
    rw [e3] at ef
    simp only [Outcome.bind] at ef
    injection ef with _ ef2
  · have hcalls : sf.calls = s3.calls := by
      rw [← ef2]
      split <;> rfl
    have hck : k = firstCount s.curs numb := by rw [← h0c]; exact ck
    have hc2 : s2.curs = s.curs + w := by rw [w12.1]; omega
    rw [hcalls, l3, l2, l1, h0l, w12.2.2.1, w1.2.2.1, h0m, w1.1, h0c, hc2]
    unfold writeCalls
    rw [← hck]
    simp only [List.append_assoc]
    have hq : (numb - k) / 512 = (w - k) / 512 := by omega
    have hr : (numb - k) % 512 = numb - w := by omega
    rw [hq, hr]
    by_cases hg : numb - w > 0
    · rw [if_pos hg, if_pos hg, show (s.curs + numb) / 512 = (s.curs + w) / 512 by omega]
    · rw [if_neg hg, if_neg hg]
  · have hnb : sf.nblocks = s3.nblocks := by
      rw [← ef2]
      split <;> rfl
    rw [hnb, w3.2.2.2.1, w12.2.2.2.1, h0n]

/-! ## The collaborator calls of `fsRead` -/

theorem fsRead_first_calls (K : Errno) (s : FS) (avail : Int) (buf : Mem)
    (hc : 0 ≤ s.curs) (ha : 0 ≤ avail) :
    ∀ r s1, fsRead_first K s (fsCursorPosToFdn s.curs) (Int.tmod s.curs BYTESPERBLOCK)
        avail buf = Outcome.ok r s1 →
      r.1 = firstCount s.curs avail ∧
      s1.calls = s.calls ++
        (if s.curs % 512 > 0 then [Call.bfsRead (s.curs / 512)] else []) := by
  intro r s1
  rw [tmod_block_eq _ hc, fsCursorPosToFdn_eq _ hc]
  have h1 : 0 ≤ s.curs % 512 := Int.emod_nonneg _ (by decide)
  have h2 : s.curs % 512 < 512 := Int.emod_lt_of_pos _ (by decide)
  unfold fsRead_first firstCount
  by_cases ho : s.curs % 512 > 0
  · have hsub : sub32 BYTESPERBLOCK (s.curs % 512) = 512 - s.curs % 512 :=
      sub32_eq _ _ (by unfold isI32 BYTESPERBLOCK; omega)
    simp only [if_pos ho]
    rw [hsub]
    have hk0 : 0 ≤ (if 512 - s.curs % 512 > avail then avail else 512 - s.curs % 512) := by
      split <;> omega
    rw [fsSeek_cur _ _ _ hk0]
    simp only [Outcome.bind, zero_add]
    intro h
    injection h with e1 e2
    rw [← e1, ← e2]
    exact ⟨rfl, rfl⟩
  · simp only [if_neg ho]
    intro h
    injection h with e1 e2
    rw [← e1, ← e2]
    exact ⟨rfl, (List.append_nil _).symm⟩

theorem fsRead_full_calls (K : Errno) (avail : Int) (ha : avail ≤ 2147483647) :
    ∀ (fuel : Nat) (s : FS) (r b : Int) (buf : Mem), 0 ≤ s.curs →
      0 ≤ r → r ≤ avail → s.curs + (avail - r) ≤ 2147483647 →
      ∀ x s1, fsRead_full K fuel s avail r b buf = Outcome.ok x s1 →
        r ≤ x.1 ∧ (x.1 - r) % 512 = 0 ∧
        s1.calls = s.calls ++ fullReadCalls (s.curs / 512) ((x.1 - r) / 512).toNat := by
  intro fuel
  induction fuel with
  | zero =>
    intro s r b buf _ _ _ _ x s1 h
    unfold fsRead_full at h
    cases h
  | succ fuel ih =>
    intro s r b buf hc hr0 hr hfit x s1
    unfold fsRead_full
    have hsub : sub32 avail r = avail - r := sub32_eq _ _ (by unfold isI32; omega)
    rw [hsub]
    by_cases hg : avail - r ≥ BYTESPERBLOCK
    · rw [if_pos hg]
      unfold BYTESPERBLOCK at hg
      simp only [fsFdToFdn, fsTell, bfsTell]
      rw [fsSeek_cur _ _ _ (by decide), fsCursorPosToFdn_eq _ hc,
        add32_eq r _ (by unfold isI32 BYTESPERBLOCK; omega)]
      simp only [Outcome.bind]
      have key : ∀ (s0 : FS) (buf0 : Mem), s0.curs = s.curs + 512 →
          s0.calls = s.calls ++ [Call.bfsRead (s.curs / 512)] →
          fsRead_full K fuel s0 avail (r + 512) (b + 512) buf0 = Outcome.ok x s1 →
          r ≤ x.1 ∧ (x.1 - r) % 512 = 0 ∧
          s1.calls = s.calls ++ fullReadCalls (s.curs / 512) ((x.1 - r) / 512).toNat := by
        intro s0 buf0 h0c h0l he
        obtain ⟨i1, i2, i3⟩ := ih s0 (r + 512) (b + 512) buf0 (by omega) (by omega) (by omega)
          (by omega) x s1 he
        refine ⟨by omega, by omega, ?_⟩
        have hm : ((x.1 - r) / 512).toNat = ((x.1 - (r + 512)) / 512).toNat + 1 := by omega
        rw [i3, h0l, h0c, hm, show (s.curs + 512) / 512 = s.curs / 512 + 1 by omega]
        simp [fullReadCalls]
      refine key _ _ ?_ rfl
      show add32 s.curs BYTESPERBLOCK = _
      exact add32_eq _ _ (by unfold isI32 BYTESPERBLOCK; omega)
    · rw [if_neg hg]
      intro h
      injection h with e1 e2
      rw [← e1, ← e2]
      refine ⟨le_refl _, by simp, ?_⟩
      simp [fullReadCalls]

theorem fsRead_last_calls (K : Errno) (s : FS) (avail r b : Int) (buf : Mem)
    (hc : 0 ≤ s.curs) (hr : r ≤ avail) (hfit : s.curs + (avail - r) ≤ 2147483647) :
    ∀ x s1, fsRead_last K s avail r b buf = Outcome.ok x s1 →
      s1.calls = s.calls ++
        (if avail - r > 0 then [Call.bfsRead (s.curs / 512)] else []) := by
  intro x s1
  unfold fsRead_last
  have hsub : sub32 avail r = avail - r := sub32_eq _ _ (by unfold isI32; omega)
  rw [hsub]
  simp only []
  by_cases hg : avail - r > 0
  · simp only [if_pos hg]
    simp only [fsFdToFdn, fsTell, bfsTell]
    rw [fsSeek_cur _ _ _ (by omega), fsCursorPosToFdn_eq _ hc]
    simp only [Outcome.bind]
    intro h
    injection h with e1 e2
    rw [← e2]
    rfl
  · simp only [if_neg hg]
    intro h
    injection h with e1 e2
    rw [← e2]
    exact (List.append_nil _).symm

/-- The calls of `fsRead` below the end of the file. -/
theorem fsRead_calls (K : Errno) (s : FS) (numb : Int) (buf : Mem)
    (hE : K.EBADCURS < 0) (hc : 0 ≤ s.curs) (hlt : s.curs < s.size)
    (hs : s.size ≤ 2147483647) (hn : 0 ≤ numb) :
    ∃ s1 out, fsRead K s numb buf = Outcome.ok (min numb (s.size - s.curs), out) s1 ∧
      s1.calls = s.calls ++ readCalls s.curs (min numb (s.size - s.curs)) := by
  obtain ⟨sf, outf, ef, _⟩ := fsRead_spec K s numb buf hE hc hlt hs hn
  refine ⟨sf, outf, ef, ?_⟩
  unfold fsRead at ef
  simp only [fsTell, bfsTell, fsSize, bfsGetSize] at ef
  rw [if_neg (by omega), if_neg (by omega)] at ef
  have hsub : sub32 s.size s.curs = s.size - s.curs := sub32_eq _ _ (by unfold isI32; omega)
  rw [hsub] at ef
  obtain ⟨avail, hav⟩ : ∃ avail, avail = if s.size - s.curs > numb then numb
      else s.size - s.curs := ⟨_, rfl⟩
  rw [← hav] at ef
  have hmin : min numb (s.size - s.curs) = avail := by
    rw [hav]
    split
    · exact min_eq_left (by omega)
    · exact min_eq_right (by omega)
  have ha0 : 0 ≤ avail := by rw [hav]; split <;> omega
  have ha1 : avail ≤ numb := by rw [hav]; split <;> omega
  have ha2 : avail ≤ s.size - s.curs := by rw [hav]; split <;> omega
  rw [hmin] at ef ⊢
  obtain ⟨k, s1, buf1, e1, r1, hk0, hk1, hal1⟩ :=
    fsRead_first_spec K s avail buf hc ha0 (by omega)
  obtain ⟨ck, l1⟩ := fsRead_first_calls K s avail buf hc ha0 _ _ e1
  rw [e1] at ef
  simp only [Outcome.bind] at ef
  obtain ⟨r, s2, buf2, e2, r2, hr0, hr1, hr2, hal2⟩ :=
    fsRead_full_spec K avail (by omega) (numb.toNat + 1) s1 k k buf1
      (by rw [r1.1]; omega) hk0 hk1 (by rw [r1.1]; omega) (by omega) (by omega)
  obtain ⟨_, hm2, l2⟩ := fsRead_full_calls K avail (by omega) (numb.toNat + 1) s1 k k buf1
      (by rw [r1.1]; omega) hk0 hk1 (by rw [r1.1]; omega) _ _ e2
  rw [e2] at ef
  simp only [Outcome.bind] at ef
  have r12 := ReadInto_trans r1 (by rw [zero_add]; exact r2) hk0 (by omega)
  have l3 := fsRead_last_calls K s2 avail r (k + (r - k)) buf2
      (by rw [r12.1]; omega) hr1 (by rw [r12.1]; omega) _ _ ef
  have hc2 : s2.curs = s.curs + r := by rw [r12.1]; omega
  rw [l3, l2, l1, r1.1, hc2]
  unfold readCalls
  rw [← ck]
  simp only [List.append_assoc]
  have hq : (avail - k) / 512 = (r - k) / 512 := by omega
  have hr : (avail - k) % 512 = avail - r := by omega
  rw [hq, hr]
  by_cases hg : avail - r > 0
  · rw [if_pos hg, if_pos hg, show (s.curs + avail) / 512 = (s.curs + r) / 512 by omega]
  · rw [if_neg hg, if_neg hg]

/-! ## Reading the logs -/

theorem firstCount_cases (c n : Int) (hn : 0 ≤ n) :
    0 ≤ firstCount c n ∧ firstCount c n ≤ n ∧ (c % 512 = 0 → firstCount c n = 0) ∧
    (c % 512 > 0 → (firstCount c n = n ∧ n ≤ 512 - c % 512) ∨
      (firstCount c n = 512 - c % 512 ∧ 512 - c % 512 < n)) := by
  have h1 : 0 ≤ c % 512 := Int.emod_nonneg _ (by decide)
  have h2 : c % 512 < 512 := Int.emod_lt_of_pos _ (by decide)
  unfold firstCount
  by_cases ho : c % 512 > 0
  · rw [if_pos ho]
    by_cases hx : 512 - c % 512 > n
    · rw [if_pos hx]
      exact ⟨hn, le_refl _, fun h => by omega, fun _ => Or.inl ⟨rfl, by omega⟩⟩
    · rw [if_neg hx]
      refine ⟨by omega, by omega, fun h => by omega, fun _ => ?_⟩
      by_cases hy : n = 512 - c % 512
      · exact Or.inl ⟨hy.symm, by omega⟩
      · exact Or.inr ⟨rfl, by omega⟩
  · rw [if_neg ho]
    exact ⟨le_refl _, hn, fun _ => rfl, fun h => absurd h ho⟩

theorem blocksFrom_append (a b : Nat) :
    ∀ f : Int, blocksFrom f (a + b) = blocksFrom f a ++ blocksFrom (f + (a : Int)) b := by
  induction a with
  | zero =>
    intro f
    simp [blocksFrom]
  | succ a ih =>
    intro f
    have e : f + ((a + 1 : Nat) : Int) = f + 1 + (a : Int) := by push_cast; omega
    rw [show a + 1 + b = (a + b) + 1 by omega, e]
    simp only [blocksFrom, List.cons_append]
    rw [ih (f + 1)]

theorem bioWrites_append (l1 l2 : List Call) :
    bioWrites (l1 ++ l2) = bioWrites l1 ++ bioWrites l2 := by
  induction l1 with
  | nil => rfl
  | cons c l ih =>
    cases c with
    | bfsExtend f => simpa [bioWrites] using ih
    | bfsRead f => simpa [bioWrites] using ih
    | bfsFbnToDbn f => simpa [bioWrites] using ih
    | bioWrite d => simpa [bioWrites] using ih

theorem bioWrites_fullWriteCalls (dbnOf : Int → Int) (m : Nat) :
    ∀ f : Int, bioWrites (fullWriteCalls dbnOf f m) = (blocksFrom f m).map dbnOf := by
  induction m with
  | zero => intro f; rfl
  | succ m ih =>
    intro f
    simp only [fullWriteCalls, bioWrites, blocksFrom, List.map_cons]
    rw [ih (f + 1)]

/-- The device blocks that `fsWrite` of `n > 0` bytes at `c ≥ 0` writes: those of
the file blocks from the block of `c` to the block of `c + n - 1`, in order. -/
theorem bioWrites_writeCalls (dbnOf : Int → Int) (size c n : Int) (hn : 0 < n) :
    bioWrites (writeCalls dbnOf size c n) =
      (blocksFrom (c / 512) ((c + n - 1) / 512 - c / 512 + 1).toNat).map dbnOf := by
  have h1 : 0 ≤ c % 512 := Int.emod_nonneg _ (by decide)
  have h2 : c % 512 < 512 := Int.emod_lt_of_pos _ (by decide)
  obtain ⟨k0, k1, kz, kp⟩ := firstCount_cases c n (le_of_lt hn)
  unfold writeCalls
  rw [bioWrites_append, bioWrites_append, bioWrites_append, bioWrites_fullWriteCalls]
  have hext : bioWrites (if sub32 size c < n then [Call.bfsExtend ((c + n) / 512)] else [])
      = [] := by
    split <;> rfl
  rw [hext, List.nil_append]
  obtain ⟨k, hk⟩ : ∃ k, k = firstCount c n := ⟨_, rfl⟩
  rw [← hk] at k0 k1 kz kp ⊢
  obtain ⟨m, hm⟩ : ∃ m : Nat, m = ((n - k) / 512).toNat := ⟨_, rfl⟩
  rw [← hm]
  have hmi : (m : Int) = (n - k) / 512 := by omega
  by_cases ho : c % 512 > 0
  · rw [if_pos ho]
    rcases kp ho with ⟨hkn, hle⟩ | ⟨hkv, hlt⟩
    · have hm0 : m = 0 := by omega
      rw [hm0, if_neg (by omega),
        show ((c + n - 1) / 512 - c / 512 + 1).toNat = 1 by omega]
      rfl
    · by_cases hr : (n - k) % 512 > 0
      · rw [if_pos hr,
          show ((c + n - 1) / 512 - c / 512 + 1).toNat = 1 + (m + 1) by omega,
          blocksFrom_append 1 (m + 1), blocksFrom_append m 1,
          show (c + k) / 512 = c / 512 + ((1 : Nat) : Int) by omega,
          show (c + n) / 512 = c / 512 + ((1 : Nat) : Int) + (m : Int) by omega]
        simp [blocksFrom, bioWrites, mergeCalls]
      · rw [if_neg hr,
          show ((c + n - 1) / 512 - c / 512 + 1).toNat = 1 + m by omega,
          blocksFrom_append 1 m,
          show (c + k) / 512 = c / 512 + ((1 : Nat) : Int) by omega]
        simp [blocksFrom, bioWrites, mergeCalls]
  · rw [if_neg ho]
    have hkz : k = 0 := kz (by omega)
    by_cases hr : (n - k) % 512 > 0
    · rw [if_pos hr,
        show ((c + n - 1) / 512 - c / 512 + 1).toNat = m + 1 by omega,
        blocksFrom_append m 1,
        show (c + k) / 512 = c / 512 by omega,
        show (c + n) / 512 = c / 512 + (m : Int) by omega]
      simp [blocksFrom, bioWrites, mergeCalls]
    · rw [if_neg hr,
        show ((c + n - 1) / 512 - c / 512 + 1).toNat = m by omega,
        show (c + k) / 512 = c / 512 by omega]
      simp [bioWrites]

theorem withinAlloc_mergeCalls (dbnOf : Int → Int) (A f : Int) (l : List Call)
    (h0 : 0 ≤ f) (h1 : f < A) (hl : withinAlloc A l) :
    withinAlloc A (mergeCalls dbnOf f ++ l) := by
  simp only [mergeCalls, List.cons_append, List.nil_append, withinAlloc]
  exact ⟨⟨h0, h1⟩, ⟨h0, h1⟩, hl⟩

theorem withinAlloc_fullWriteCalls (dbnOf : Int → Int) (A : Int) (l : List Call)
    (hl : withinAlloc A l) :
    ∀ (m : Nat) (f : Int), 0 ≤ f → f + (m : Int) ≤ A →
      withinAlloc A (fullWriteCalls dbnOf f m ++ l) := by
  intro m
  induction m with
  | zero => intro f _ _; exact hl
  | succ m ih =>
    intro f h0 h1
    simp only [fullWriteCalls, List.cons_append, withinAlloc]
    push_cast at h1
    exact ⟨⟨h0, by omega⟩, ih (f + 1) (by omega) (by omega)⟩

theorem withinAlloc_fullReadCalls (A : Int) (l : List Call) (hl : withinAlloc A l) :
    ∀ (m : Nat) (f : Int), 0 ≤ f → f + (m : Int) ≤ A →
      withinAlloc A (fullReadCalls f m ++ l) := by
  intro m
  induction m with
  | zero => intro f _ _; exact hl
  | succ m ih =>
    intro f h0 h1
    simp only [fullReadCalls, List.cons_append, withinAlloc]
    push_cast at h1
    exact ⟨⟨h0, by omega⟩, ih (f + 1) (by omega) (by omega)⟩

/-- The calls of `fsWrite` stay inside the allocation, when the allocation
covers the size. -/
theorem withinAlloc_writeCalls (dbnOf : Int → Int) (size c n A : Int) (hc : 0 ≤ c)
    (hn : 0 ≤ n) (hsub : sub32 size c = size - c) (hA : size ≤ A * 512) :
    withinAlloc A (writeCalls dbnOf size c n) := by
  have h1 : 0 ≤ c % 512 := Int.emod_nonneg _ (by decide)
  have h2 : c % 512 < 512 := Int.emod_lt_of_pos _ (by decide)
  obtain ⟨k0, k1, kz, kp⟩ := firstCount_cases c n hn
  have tail : ∀ B : Int, c + n ≤ B * 512 →
      withinAlloc B
        ((if c % 512 > 0 then mergeCalls dbnOf (c / 512) else []) ++
        (fullWriteCalls dbnOf ((c + firstCount c n) / 512)
            ((n - firstCount c n) / 512).toNat ++
          (if (n - firstCount c n) % 512 > 0 then mergeCalls dbnOf ((c + n) / 512) else []))) := by
    intro B hB
    obtain ⟨k, hk⟩ : ∃ k, k = firstCount c n := ⟨_, rfl⟩
    rw [← hk] at k0 k1 kz kp ⊢
    have hlast : withinAlloc B
        (if (n - k) % 512 > 0 then mergeCalls dbnOf ((c + n) / 512) else []) := by
      by_cases hr : (n - k) % 512 > 0
      · rw [if_pos hr, ← List.append_nil (mergeCalls dbnOf ((c + n) / 512))]
        refine withinAlloc_mergeCalls dbnOf B _ [] (by omega) ?_ trivial
        by_cases ho : c % 512 > 0
        · rcases kp ho with ⟨hkn, _⟩ | ⟨hkv, _⟩
          · omega
          · omega
        · have := kz (by omega)
          omega
      · rw [if_neg hr]
        trivial
    have hfull : withinAlloc B
        (fullWriteCalls dbnOf ((c + k) / 512) ((n - k) / 512).toNat ++
          (if (n - k) % 512 > 0 then mergeCalls dbnOf ((c + n) / 512) else [])) := by
      refine withinAlloc_fullWriteCalls dbnOf B _ hlast _ _ (by omega) ?_
      by_cases ho : c % 512 > 0
      · rcases kp ho with ⟨hkn, _⟩ | ⟨hkv, _⟩
        · omega
        · omega
      · have := kz (by omega)
        omega
    by_cases ho : c % 512 > 0
    · rw [if_pos ho]
      exact withinAlloc_mergeCalls dbnOf B _ _ (by omega) (by omega) hfull
    · rw [if_neg ho]
      exact hfull
  unfold writeCalls
  rw [hsub]
  by_cases hx : size - c < n
  · rw [if_pos hx]
    show withinAlloc (max A ((c + n) / 512 + 1)) _
    refine tail _ ?_
    have := le_max_right A ((c + n) / 512 + 1)
    omega
  · rw [if_neg hx]
    exact tail A (by omega)

/-- The calls of `fsRead` stay inside the allocation, when the allocation
covers the bytes available. -/
theorem withinAlloc_readCalls (c avail A : Int) (hc : 0 ≤ c) (ha : 0 ≤ avail)
    (hA : c + avail ≤ A * 512) : withinAlloc A (readCalls c avail) := by
  have h1 : 0 ≤ c % 512 := Int.emod_nonneg _ (by decide)
  have h2 : c % 512 < 512 := Int.emod_lt_of_pos _ (by decide)
  obtain ⟨k0, k1, kz, kp⟩ := firstCount_cases c avail ha
  unfold readCalls
  obtain ⟨k, hk⟩ : ∃ k, k = firstCount c avail := ⟨_, rfl⟩
  rw [← hk] at k0 k1 kz kp ⊢
  have hlast : withinAlloc A
      (if (avail - k) % 512 > 0 then [Call.bfsRead ((c + avail) / 512)] else []) := by
    by_cases hr : (avail - k) % 512 > 0
    · rw [if_pos hr]
      refine ⟨⟨by omega, ?_⟩, trivial⟩
      by_cases ho : c % 512 > 0
      · rcases kp ho with ⟨hkn, _⟩ | ⟨hkv, _⟩
        · omega
        · omega
      · have := kz (by omega)
        omega
    · rw [if_neg hr]
      trivial
  have hfull : withinAlloc A
      (fullReadCalls ((c + k) / 512) ((avail - k) / 512).toNat ++
        (if (avail - k) % 512 > 0 then [Call.bfsRead ((c + avail) / 512)] else [])) := by
    refine withinAlloc_fullReadCalls A _ hlast _ _ (by omega) ?_
    by_cases ho : c % 512 > 0
    · rcases kp ho with ⟨hkn, _⟩ | ⟨hkv, _⟩
      · omega
      · omega
    · have := kz (by omega)
      omega
  by_cases ho : c % 512 > 0
  · rw [if_pos ho]
    exact ⟨⟨by omega, by omega⟩, hfull⟩
  · rw [if_neg ho]
    exact hfull

/-- The block that `fsWrite` passes to `bfsExtend`, when it extends: the block of
the position `c + n`, the first one after the bytes written. -/
theorem fsWrite_extend_target (K : Errno) (s : FS) (n : Int) (buf : Mem)
    (hE : K.EBADCURS < 0) (hc : 0 ≤ s.curs) (hn : 0 ≤ n)
    (hfit : s.curs + n ≤ 2147483647) (hx : sub32 s.size s.curs < n) :
    ∃ s1 l, fsWrite K s n buf = Outcome.ok 0 s1 ∧
      s1.calls = s.calls ++ Call.bfsExtend (fsCursorPosToFdn (s.curs + n)) :: l := by
  obtain ⟨s1, e, hl, _⟩ := fsWrite_calls K s n buf hE hc hn hfit
  refine ⟨s1,
    (if s.curs % 512 > 0 then mergeCalls s.dbnOf (s.curs / 512) else []) ++
      (fullWriteCalls s.dbnOf ((s.curs + firstCount s.curs n) / 512)
          ((n - firstCount s.curs n) / 512).toNat ++
        (if (n - firstCount s.curs n) % 512 > 0
          then mergeCalls s.dbnOf ((s.curs + n) / 512) else [])), e, ?_⟩
  rw [hl, fsCursorPosToFdn_eq _ (by omega)]
  unfold writeCalls
  rw [if_pos hx]
  rfl

/-- C12, the code at a failing input: on a new file with the cursor at 0, `fsWrite`
of 512 bytes passes block 1 to `bfsExtend` and leaves 2 blocks allocated, while
the last byte written, at position 511, lies in block 0. -/
theorem fsWrite_extend_target_block_end :
    ∃ s1, fsWrite exErrno (newFile 0) 512 (fill 9) = Outcome.ok 0 s1 ∧
      s1.calls = [Call.bfsExtend 1, Call.bfsFbnToDbn 0, Call.bioWrite 100] ∧
      s1.nblocks = 2 ∧ fsCursorPosToFdn (0 + 512 - 1) = 0 :=
  ⟨_, rfl, by decide, by decide, by decide⟩

/-- C16 (minimal block-write sequence). `fsWrite` of `n > 0` bytes at the cursor
`c ≥ 0` returns, and the device blocks it passes to `bioWrite` are, in order,
those of the file blocks `fsCursorPosToFdn c`, ..., `fsCursorPosToFdn (c + n - 1)`,
each once and ascending (`blocksFrom`): the blocks that overlap `[c, c+n)` and no
other. Assumed: `c + n` is an `i32` value and the invalid-cursor marker is
negative. -/
theorem fsWrite_block_writes (K : Errno) (s : FS) (n : Int) (buf : Mem)
    (hE : K.EBADCURS < 0) (hc : 0 ≤ s.curs) (hn : 0 < n)
    (hfit : s.curs + n ≤ 2147483647) :
    ∃ s1 l, fsWrite K s n buf = Outcome.ok 0 s1 ∧ s1.calls = s.calls ++ l ∧
      bioWrites l = (blocksFrom (fsCursorPosToFdn s.curs)
        (fsCursorPosToFdn (s.curs + n - 1) - fsCursorPosToFdn s.curs + 1).toNat).map
          s.dbnOf := by
  obtain ⟨s1, e, hl, _⟩ := fsWrite_calls K s n buf hE hc (le_of_lt hn) hfit
  refine ⟨s1, _, e, hl, ?_⟩
  rw [fsCursorPosToFdn_eq _ hc, fsCursorPosToFdn_eq _ (by omega)]
  exact bioWrites_writeCalls s.dbnOf s.size s.curs n hn

theorem fsWrite_block_writes_witness :
    exErrno.EBADCURS < 0 ∧ 0 ≤ (newFile 700).curs ∧ (0 : Int) < 1000 ∧
    (newFile 700).curs + 1000 ≤ 2147483647 ∧
    ∃ s1 l, fsWrite exErrno (newFile 700) 1000 (fill 9) = Outcome.ok 0 s1 ∧
      s1.calls = (newFile 700).calls ++ l ∧
      bioWrites l = (blocksFrom (fsCursorPosToFdn (newFile 700).curs)
        (fsCursorPosToFdn ((newFile 700).curs + 1000 - 1)
          - fsCursorPosToFdn (newFile 700).curs + 1).toNat).map (newFile 700).dbnOf :=
  ⟨by decide, by decide, by decide, by decide,
    fsWrite_block_writes exErrno (newFile 700) 1000 (fill 9)
      (by decide) (by decide) (by decide) (by decide)⟩

/-- C17 (block accesses stay inside the allocation). On a file whose `A`
allocated blocks cover its size (`size ≤ A * 512`), with cursor `c ≥ 0` and
`n ≥ 0`: `fsWrite` returns, every block number it passes to `bfsRead` or
`bfsFbnToDbn` is in `0 .. A-1` for the allocation `A` at the time of the call
(after `bfsExtend`, if any), and the allocation still covers the size after the
call; the same holds for `fsRead` and the block numbers it passes to `bfsRead`.
Assumed: the size is in `0 .. 2^31-1`, `c + n` is an `i32` value and the
invalid-cursor marker is negative. -/
theorem block_accesses_within_allocation (K : Errno) (s : FS) (n : Int) (buf : Mem)
    (hE : K.EBADCURS < 0) (hc : 0 ≤ s.curs) (hn : 0 ≤ n) (hz : 0 ≤ s.size)
    (hs : s.size ≤ 2147483647) (hfit : s.curs + n ≤ 2147483647)
    (hA : s.size ≤ s.nblocks * BYTESPERBLOCK) :
    (∃ s1 l, fsWrite K s n buf = Outcome.ok 0 s1 ∧ s1.calls = s.calls ++ l ∧
      withinAlloc s.nblocks l ∧ fsSize s1 ≤ s1.nblocks * BYTESPERBLOCK) ∧
    (∃ k out s1 l, fsRead K s n buf = Outcome.ok (k, out) s1 ∧ s1.calls = s.calls ++ l ∧
      withinAlloc s.nblocks l ∧ fsSize s1 ≤ s1.nblocks * BYTESPERBLOCK) := by
  unfold BYTESPERBLOCK at hA ⊢
  have hsub : sub32 s.size s.curs = s.size - s.curs := sub32_eq _ _ (by unfold isI32; omega)
  constructor
  · obtain ⟨s1, e, hl, hb, hsz⟩ := fsWrite_calls K s n buf hE hc hn hfit
    refine ⟨s1, _, e, hl, withinAlloc_writeCalls s.dbnOf s.size s.curs n s.nblocks hc hn hsub hA,
      ?_⟩
    show s1.size ≤ s1.nblocks * 512
    rw [hsz, hb, hsub]
    by_cases hx : s.size - s.curs < n
    · rw [if_pos hx, max_eq_right (by omega)]
      have := le_max_right s.nblocks ((s.curs + n) / 512 + 1)
      omega
    · rw [if_neg hx, max_eq_left (by omega)]
      exact hA
  · by_cases hlt : s.curs < s.size
    · obtain ⟨s1, out, e, hl⟩ := fsRead_calls K s n buf hE hc hlt hs hn
      have hk := fsRead_keeps K s n buf
      rw [e] at hk
      refine ⟨_, out, s1, _, e, hl, ?_, ?_⟩
      · refine withinAlloc_readCalls s.curs _ s.nblocks hc (le_min hn (by omega)) ?_
        have := min_le_right n (s.size - s.curs)
        omega
      · show s1.size ≤ s1.nblocks * 512
        rw [hk.1, hk.2.1]
        exact hA
    · refine ⟨0, buf, s, [], fsRead_at_end K s n buf hE hc (by omega),
        (List.append_nil _).symm, trivial, hA⟩

theorem block_accesses_within_allocation_witness :
    exErrno.EBADCURS < 0 ∧ 0 ≤ (sampleFile 100 600).curs ∧ (0 : Int) ≤ 1000 ∧
    0 ≤ (sampleFile 100 600).size ∧ (sampleFile 100 600).size ≤ 2147483647 ∧
    (sampleFile 100 600).curs + 1000 ≤ 2147483647 ∧
    (sampleFile 100 600).size ≤ (sampleFile 100 600).nblocks * BYTESPERBLOCK ∧
    (∃ s1 l, fsWrite exErrno (sampleFile 100 600) 1000 (fill 9) = Outcome.ok 0 s1 ∧
      s1.calls = (sampleFile 100 600).calls ++ l ∧
      withinAlloc (sampleFile 100 600).nblocks l ∧ fsSize s1 ≤ s1.nblocks * BYTESPERBLOCK) ∧
    (∃ k out s1 l, fsRead exErrno (sampleFile 100 600) 1000 (fill 9) = Outcome.ok (k, out) s1 ∧
      s1.calls = (sampleFile 100 600).calls ++ l ∧
      withinAlloc (sampleFile 100 600).nblocks l ∧ fsSize s1 ≤ s1.nblocks * BYTESPERBLOCK) :=
  ⟨by decide, by decide, by decide, by decide, by decide, by decide, by decide,
    block_accesses_within_allocation exErrno (sampleFile 100 600) 1000 (fill 9)
      (by decide) (by decide) (by decide) (by decide) (by decide) (by decide) (by decide)⟩

end BFS
